import Mathlib

/-!
Verification of `matching.py`: the deferred acceptance (Gale-Shapley)
algorithm `deferred_acceptance` supporting one-to-one and many-to-one
(capacitated) matching, and the rank-table builder `prefs2ranks`.

The embedding is a direct translation of the source:
numpy integer arrays become functions `Nat → Nat` (with explicit
lengths carried separately, as numpy shapes), boolean arrays become
`Nat → Bool`, and in-place writes become pointwise functional updates.
The unbounded `while` loop becomes a fuel-indexed iteration; the fuel
`m * (n+1) + 1` is proved sufficient (the loop reaches its fixed point
within that many passes), which is the termination claim itself.
-/

/-- Pointwise update of an array-as-function: `a[i] = v`. -/
def upd {α : Type} (f : Nat → α) (i : Nat) (v : α) : Nat → α :=
  fun j => if j = i then v else f j

theorem upd_self {α : Type} {f : Nat → α} {i : Nat} {v : α} :
    upd f i v i = v := by
  simp [upd]

theorem upd_ne {α : Type} {f : Nat → α} {i j : Nat} {v : α} (h : j ≠ i) :
    upd f i v j = f j := by
  simp [upd, h]

/-- View of a list-of-rows integer matrix as a total function,
mirroring numpy 2-D indexing (reads inside the shape are the stored
entries; the default `0` is never read by the algorithm on inputs that
pass the shape check). -/
def matFun (mat : List (List Nat)) : Nat → Nat → Nat :=
  fun i j => (mat.getD i []).getD j 0

/-- Translation of `prefs2ranks` (matching.py lines 146-151) acting on
one row: for `j` in `0,...,L-1` it performs `out[row j] = j`, later
writes overwriting earlier ones, starting from the arbitrary initial
contents `init` of the output buffer (the Python caller passes an
uninitialized `np.empty` buffer). The recursion peels the last write
`j = L-1` first, so the outermost test is the last write, exactly the
"last write wins" semantics of the ascending loop. -/
def ranksFromRow (row init : Nat → Nat) : Nat → Nat → Nat
  | 0 => init
  | L + 1 => fun x => if x = row L then L else ranksFromRow row init L x

/-- Translation of `prefs2ranks(prefs, out)` (matching.py lines
146-151) at the list level: row `i` of the output is obtained by
writing `out[i, prefs[i, j]] = j` for each column `j` of row `i`. -/
def prefs2ranks (prefs : List (List Nat)) (init : Nat → Nat → Nat) :
    Nat → Nat → Nat :=
  fun i => ranksFromRow (matFun prefs i) (init i) (prefs.getD i []).length

/-- A deferred-acceptance problem instance: `m` proposers, `n`
respondents, the two preference matrices as functions, and the slot
index-pointer table (`np.arange` for one-to-one, cumulative sum of
capacities for many-to-one), exactly the data the engine loop of
`deferred_acceptance` reads. -/
structure DAInstance where
  m : Nat
  n : Nat
  pp : Nat → Nat → Nat
  rp : Nat → Nat → Nat
  indptr : Nat → Nat

/-- The rank table `resp_ranks` built by `deferred_acceptance`
(matching.py lines 72-73) via `prefs2ranks` on `resp_prefs`, whose
rows have length `m + 1`; the `np.empty` buffer is modelled by the
all-zero initial contents (on valid rows every cell is overwritten, so
the initial contents are irrelevant; see `ranksFromRow_writes`). -/
def respRanks (I : DAInstance) : Nat → Nat → Nat :=
  fun r => ranksFromRow (I.rp r) (fun _ => 0) (I.m + 1)

/-- Position of id `x` in proposer `p`'s preference row, defined by
the same inversion as `prefs2ranks`; on valid (permutation) rows this
is the unique `j` with `pp p j = x`, used to state "p prefers x to y"
as `propRanks I p x < propRanks I p y`. -/
def propRanks (I : DAInstance) : Nat → Nat → Nat :=
  fun p => ranksFromRow (I.pp p) (fun _ => 0) (I.n + 1)

/-- The mutable state of the proposal loop of `deferred_acceptance`:
`is_single` (line 78), `next_resp` (line 81), `current_prop` (line
94), `nums_occupied` (line 97). -/
structure DAState where
  is_single : Nat → Bool
  next_resp : Nat → Nat
  current_prop : Nat → Nat
  nums_occupied : Nat → Nat

/-- The linear scan of matching.py lines 121-128 over the slot range
`[i, i+k)`: starting from the accumulated best-so-far `acc = (least_ptr,
least)`, replace it whenever a strictly larger rank is seen. -/
def findLeastAux (rk cur : Nat → Nat) : Nat → Nat × Nat → Nat → Nat × Nat
  | 0, acc, _ => acc
  | k + 1, acc, i =>
      findLeastAux rk cur k
        (if rk acc.2 < rk (cur i) then (i, cur i) else acc) (i + 1)

/-- The "find the least preferred among the currently accepted" scan
(matching.py lines 121-128): initial candidate `(lo, cur lo)`, then
scan `i` from `lo+1` to `hi-1`. -/
def findLeast (rk cur : Nat → Nat) (lo hi : Nat) : Nat × Nat :=
  findLeastAux rk cur (hi - (lo + 1)) (lo, cur lo) (lo + 1)

/-- One iteration of the body of the `for p in range(num_props)` loop
(matching.py lines 102-135): if `p` is single it proposes to
`r = prop_prefs[p, next_resp[p]]` and the four cases of lines 106-133
are applied, after which `next_resp[p]` is incremented (line 135). -/
def propose (I : DAInstance) (s : DAState) (p : Nat) : DAState :=
  if s.is_single p = true then
    let r := I.pp p (s.next_resp p)
    let s1 :=
      if r = I.n then
        { s with is_single := upd s.is_single p false }
      else if respRanks I r I.m < respRanks I r p then
        s
      else if s.nums_occupied r < I.indptr (r + 1) - I.indptr r then
        { s with
          current_prop := upd s.current_prop (I.indptr r + s.nums_occupied r) p,
          is_single := upd s.is_single p false,
          nums_occupied := upd s.nums_occupied r (s.nums_occupied r + 1) }
      else
        let fl := findLeast (respRanks I r) s.current_prop (I.indptr r) (I.indptr (r + 1))
        if respRanks I r p < respRanks I r fl.2 then
          { s with
            current_prop := upd s.current_prop fl.1 p,
            is_single := upd (upd s.is_single p false) fl.2 true }
        else s
    { s1 with next_resp := upd s1.next_resp p (s.next_resp p + 1) }
  else s

/-- One pass of the `for p in range(num_props)` loop (line 101). -/
def onePass (I : DAInstance) (s : DAState) : DAState :=
  (List.range I.m).foldl (propose I) s

/-- The value `is_single_prop.sum()` guarding the while loop (line 100). -/
def countSingle (I : DAInstance) (s : DAState) : Nat :=
  (List.range I.m).countP (fun p => s.is_single p)

/-- The `while is_single_prop.sum() > 0` loop (matching.py lines
100-135), made total by a fuel argument: with fuel `m*(n+1)+1` the
loop provably reaches its fixed point (see the termination theorem),
so the fuelled function computes exactly what the Python loop does. -/
def daLoop (I : DAInstance) : Nat → DAState → DAState
  | 0, s => s
  | fuel + 1, s =>
      if 0 < countSingle I s then daLoop I fuel (onePass I s) else s

/-- The initial loop state (matching.py lines 78-97): everyone single,
cursors at zero, all slots holding the respondent-side sentinel
`resp_unmatched = num_props`, no seats occupied. -/
def initState (I : DAInstance) : DAState :=
  { is_single := fun _ => true
    next_resp := fun _ => 0
    current_prop := fun _ => I.m
    nums_occupied := fun _ => 0 }

/-- The state when the while loop exits. -/
def finalState (I : DAInstance) : DAState :=
  daLoop I (I.m * (I.n + 1) + 1) (initState I)

/-- The extraction `prop_matches = prop_prefs[arange(num_props),
next_resp-1]` (matching.py line 137). -/
def propMatches (I : DAInstance) (s : DAState) : Nat → Nat :=
  fun p => I.pp p (s.next_resp p - 1)

/-- Total number of slots, `indptr[-1]` (matching.py line 91). -/
def numCaps (I : DAInstance) : Nat := I.indptr I.n

/-- The index-pointer table of `deferred_acceptance` (matching.py
lines 84-89): `np.arange(num_resps+1)` when `caps is None`, otherwise
`indptr[0] = 0` and a cumulative sum of `caps`. -/
def mkIndptr (caps : List Nat) : Nat → Nat
  | 0 => 0
  | r + 1 => mkIndptr caps r + caps.getD r 0

/-- Bundle the inputs of `deferred_acceptance` into an instance. -/
def mkInstance (prop_prefs resp_prefs : List (List Nat))
    (caps : Option (List Nat)) : DAInstance :=
  { m := prop_prefs.length
    n := resp_prefs.length
    pp := matFun prop_prefs
    rp := matFun resp_prefs
    indptr :=
      match caps with
      | none => fun r => r
      | some c => mkIndptr c }

/-- The shape test of matching.py lines 64-65: a list-of-rows matrix
has numpy shape `(rows, cols)` iff it has `rows` rows each of length
`cols`. -/
def shapeOk (mat : List (List Nat)) (rows cols : Nat) : Bool :=
  mat.length == rows && mat.all (fun row => row.length == cols)

/-- The capacity-length test of matching.py line 68. -/
def capsOk (caps : Option (List Nat)) (n : Nat) : Bool :=
  match caps with
  | none => true
  | some c => c.length == n

/-- Translation of `deferred_acceptance` (matching.py lines 14-143):
validate shapes (lines 60-66), validate the capacity vector length
(lines 68-69), then run the proposal loop from the initial state and
assemble `prop_matches`, `resp_matches` and (only when capacities are
supplied) `indptr`. Raised `ValueError`s become `Except.error`. -/
def deferred_acceptance (prop_prefs resp_prefs : List (List Nat))
    (caps : Option (List Nat)) :
    Except String (List Nat × List Nat × Option (List Nat)) :=
  let m := prop_prefs.length
  let n := resp_prefs.length
  if !(shapeOk prop_prefs m (n + 1) && shapeOk resp_prefs n (m + 1)) then
    Except.error "shapes of preferences arrays do not match"
  else if !(capsOk caps n) then
    Except.error "length of caps must be equal to that of resp_prefs"
  else
    let I := mkInstance prop_prefs resp_prefs caps
    let s := finalState I
    Except.ok ((List.range I.m).map (propMatches I s),
               (List.range (numCaps I)).map s.current_prop,
               caps.map (fun _ => (List.range (I.n + 1)).map I.indptr))


/-! ## Rank table lemmas -/

/-- A preference row of length `k+1` is a permutation of `{0,...,k}`:
values bounded, injective, surjective (the data-model invariant of the
spec for preference orders). -/
def PermRow (row : Nat → Nat) (k : Nat) : Prop :=
  (∀ j, j ≤ k → row j ≤ k) ∧
  (∀ j, j ≤ k → ∀ j', j' ≤ k → row j = row j' → j = j') ∧
  (∀ x, x ≤ k → ∃ j, j ≤ k ∧ row j = x)

instance (row : Nat → Nat) (k : Nat) : Decidable (PermRow row k) := by
  unfold PermRow; infer_instance

/-- Cells written by the rank scan hold the writing index: if no later
index writes the same id, `out[row j] = j`. -/
theorem ranksFromRow_writes (row init : Nat → Nat) :
    ∀ L j, j < L → (∀ j', j < j' → j' < L → row j' ≠ row j) →
    ranksFromRow row init L (row j) = j := by
  intro L
  induction L with
  | zero => intro j hj; omega
  | succ L ih =>
      intro j hj hlast
      by_cases hjL : j = L
      · subst hjL
        simp [ranksFromRow]
      · have hjL' : j < L := by omega
        have hne : row L ≠ row j := hlast L (by omega) (by omega)
        simp only [ranksFromRow]
        rw [if_neg (fun h => hne h.symm)]
        exact ih j hjL' (fun j' h1 h2 => hlast j' h1 (by omega))

/-- Cells never written keep the initial buffer contents. -/
theorem ranksFromRow_not_written (row init : Nat → Nat) :
    ∀ L x, (∀ j, j < L → row j ≠ x) → ranksFromRow row init L x = init x := by
  intro L
  induction L with
  | zero => intro x _; rfl
  | succ L ih =>
      intro x hx
      have hne : x ≠ row L := fun h => hx L (by omega) h.symm
      simp only [ranksFromRow, if_neg hne]
      exact ih x (fun j hj => hx j (by omega))

/-- On a permutation row, the rank table is the inverse function. -/
theorem ranksFromRow_eq_of_apply (row init : Nat → Nat) (k : Nat)
    (h : PermRow row k) (j : Nat) (hj : j ≤ k) :
    ranksFromRow row init (k + 1) (row j) = j := by
  refine ranksFromRow_writes row init (k + 1) j (by omega) ?_
  intro j' h1 h2 h3
  have := h.2.1 j' (by omega) j hj h3
  omega

/-- On a permutation row, every id `x ≤ k` gets a rank `≤ k` whose row
entry is `x` again (two-sided inverse). -/
theorem ranksFromRow_inv (row init : Nat → Nat) (k : Nat)
    (h : PermRow row k) (x : Nat) (hx : x ≤ k) :
    ranksFromRow row init (k + 1) x ≤ k ∧
    row (ranksFromRow row init (k + 1) x) = x := by
  obtain ⟨j, hj, hrow⟩ := h.2.2 x hx
  have := ranksFromRow_eq_of_apply row init k h j hj
  rw [hrow] at this
  rw [this, hrow]
  exact ⟨hj, rfl⟩

/-- On a permutation row the rank table is injective on `{0,...,k}`. -/
theorem ranksFromRow_inj (row init : Nat → Nat) (k : Nat)
    (h : PermRow row k) (x y : Nat) (hx : x ≤ k) (hy : y ≤ k)
    (hxy : ranksFromRow row init (k + 1) x = ranksFromRow row init (k + 1) y) :
    x = y := by
  have h1 := (ranksFromRow_inv row init k h x hx).2
  have h2 := (ranksFromRow_inv row init k h y hy).2
  rw [← h1, ← h2, hxy]

/-! ## Valid instances -/

/-- Validity of a problem instance, as the spec's input contract
states it: both preference matrices have permutation rows, and the
index pointers start at 0 and strictly increase (positive capacities;
for the one-to-one `np.arange` table this holds trivially). -/
structure ValidInstance (I : DAInstance) : Prop where
  ppRow : ∀ p, p < I.m → PermRow (I.pp p) I.n
  rpRow : ∀ r, r < I.n → PermRow (I.rp r) I.m
  ipZero : I.indptr 0 = 0
  ipMono : ∀ r, r < I.n → I.indptr r < I.indptr (r + 1)

theorem respRanks_apply {I : DAInstance} (hV : ValidInstance I) {r : Nat}
    (hr : r < I.n) {i : Nat} (hi : i ≤ I.m) :
    respRanks I r (I.rp r i) = i :=
  ranksFromRow_eq_of_apply _ _ _ (hV.rpRow r hr) i hi

theorem respRanks_inv {I : DAInstance} (hV : ValidInstance I) {r : Nat}
    (hr : r < I.n) {x : Nat} (hx : x ≤ I.m) :
    respRanks I r x ≤ I.m ∧ I.rp r (respRanks I r x) = x :=
  ranksFromRow_inv _ _ _ (hV.rpRow r hr) x hx

theorem respRanks_inj {I : DAInstance} (hV : ValidInstance I) {r : Nat}
    (hr : r < I.n) {x y : Nat} (hx : x ≤ I.m) (hy : y ≤ I.m)
    (h : respRanks I r x = respRanks I r y) : x = y :=
  ranksFromRow_inj _ _ _ (hV.rpRow r hr) x y hx hy h

theorem propRanks_apply {I : DAInstance} (hV : ValidInstance I) {p : Nat}
    (hp : p < I.m) {j : Nat} (hj : j ≤ I.n) :
    propRanks I p (I.pp p j) = j :=
  ranksFromRow_eq_of_apply _ _ _ (hV.ppRow p hp) j hj

theorem propRanks_inv {I : DAInstance} (hV : ValidInstance I) {p : Nat}
    (hp : p < I.m) {x : Nat} (hx : x ≤ I.n) :
    propRanks I p x ≤ I.n ∧ I.pp p (propRanks I p x) = x :=
  ranksFromRow_inv _ _ _ (hV.ppRow p hp) x hx

/-- Strictness helper: distinct ids of the respondent side get
distinct ranks. -/
theorem respRanks_lt_of_le {I : DAInstance} (hV : ValidInstance I) {r : Nat}
    (hr : r < I.n) {x y : Nat} (hx : x ≤ I.m) (hy : y ≤ I.m) (hne : x ≠ y)
    (h : respRanks I r x ≤ respRanks I r y) :
    respRanks I r x < respRanks I r y := by
  rcases Nat.lt_or_ge (respRanks I r x) (respRanks I r y) with h' | h'
  · exact h'
  · have : respRanks I r x = respRanks I r y := by omega
    exact absurd (respRanks_inj hV hr hx hy this) hne

/-! ## findLeast lemmas -/

theorem findLeastAux_spec (rk cur : Nat → Nat) :
    ∀ k i (acc : Nat × Nat), acc.2 = cur acc.1 →
    (findLeastAux rk cur k acc i).2 = cur (findLeastAux rk cur k acc i).1 ∧
    ((findLeastAux rk cur k acc i).1 = acc.1 ∨
      (i ≤ (findLeastAux rk cur k acc i).1 ∧
       (findLeastAux rk cur k acc i).1 < i + k)) ∧
    rk acc.2 ≤ rk (findLeastAux rk cur k acc i).2 ∧
    (∀ j, i ≤ j → j < i + k → rk (cur j) ≤ rk (findLeastAux rk cur k acc i).2) := by
  intro k
  induction k with
  | zero =>
      intro i acc hacc
      refine ⟨hacc, Or.inl rfl, le_refl _, ?_⟩
      intro j h1 h2; omega
  | succ k ih =>
      intro i acc hacc
      simp only [findLeastAux]
      by_cases hcmp : rk acc.2 < rk (cur i)
      · rw [if_pos hcmp]
        obtain ⟨ha, hb, hc, hd⟩ := ih (i + 1) (i, cur i) rfl
        refine ⟨ha, ?_, ?_, ?_⟩
        · rcases hb with hb | hb
          · exact Or.inr ⟨by omega, by omega⟩
          · exact Or.inr ⟨by omega, by omega⟩
        · exact le_trans (le_of_lt hcmp) hc
        · intro j h1 h2
          by_cases hj : j = i
          · subst hj; exact hc
          · exact hd j (by omega) (by omega)
      · rw [if_neg hcmp]
        obtain ⟨ha, hb, hc, hd⟩ := ih (i + 1) acc hacc
        refine ⟨ha, ?_, hc, ?_⟩
        · rcases hb with hb | hb
          · exact Or.inl hb
          · exact Or.inr ⟨by omega, by omega⟩
        · intro j h1 h2
          by_cases hj : j = i
          · subst hj
            exact le_trans (Nat.le_of_not_lt hcmp) hc
          · exact hd j (by omega) (by omega)

/-- Specification of the least-preferred-occupant scan: it returns a
slot index in `[lo, hi)`, the value stored there, and that value has
maximal rank among all slots in `[lo, hi)`. -/
theorem findLeast_spec (rk cur : Nat → Nat) (lo hi : Nat) (h : lo < hi) :
    (findLeast rk cur lo hi).2 = cur (findLeast rk cur lo hi).1 ∧
    lo ≤ (findLeast rk cur lo hi).1 ∧ (findLeast rk cur lo hi).1 < hi ∧
    (∀ j, lo ≤ j → j < hi → rk (cur j) ≤ rk (findLeast rk cur lo hi).2) := by
  have key := findLeastAux_spec rk cur (hi - (lo + 1)) (lo + 1) (lo, cur lo) rfl
  obtain ⟨ha, hb, hc, hd⟩ := key
  unfold findLeast
  refine ⟨ha, ?_, ?_, ?_⟩
  · rcases hb with hb | hb
    · omega
    · omega
  · rcases hb with hb | hb
    · omega
    · omega
  · intro j h1 h2
    by_cases hj : j = lo
    · subst hj; exact hc
    · exact hd j (by omega) (by omega)

/-! ## Stable matchings (spec section 8) -/

/-- Capacity of respondent `r` as the engine reads it:
`indptr[r+1] - indptr[r]`. -/
def capFn (I : DAInstance) (r : Nat) : Nat := I.indptr (r + 1) - I.indptr r

/-- Number of proposers a matching assigns to respondent `r`. -/
def heldCount (I : DAInstance) (mu : Nat → Nat) (r : Nat) : Nat :=
  ((Finset.range I.m).filter (fun p => mu p = r)).card

/-- Blocking pair in the sense of the spec's stability property:
proposer `p` strictly prefers `r` to its assigned outcome, and `r`
strictly prefers `p` to a vacancy (when under capacity and `p` is
acceptable) or to one of its currently held proposers. -/
def Blocks (I : DAInstance) (mu : Nat → Nat) (p r : Nat) : Prop :=
  mu p ≠ r ∧ propRanks I p r < propRanks I p (mu p) ∧
  ((heldCount I mu r < capFn I r ∧ respRanks I r p < respRanks I r I.m) ∨
   ∃ q, q < I.m ∧ mu q = r ∧ respRanks I r p < respRanks I r q)

/-- A stable matching of the instance, represented by the proposer
assignment `mu` (value `I.n` meaning unmatched): feasible, individually
rational on both sides, and admitting no blocking pair. -/
def IsStable (I : DAInstance) (mu : Nat → Nat) : Prop :=
  (∀ p, p < I.m → mu p ≤ I.n) ∧
  (∀ r, r < I.n → heldCount I mu r ≤ capFn I r) ∧
  (∀ p, p < I.m → mu p < I.n → propRanks I p (mu p) < propRanks I p I.n) ∧
  (∀ p, p < I.m → mu p < I.n → respRanks I (mu p) p < respRanks I (mu p) I.m) ∧
  (∀ p, p < I.m → ∀ r, r < I.n → ¬ Blocks I mu p r)

instance (I : DAInstance) (mu : Nat → Nat) (p r : Nat) :
    Decidable (Blocks I mu p r) := by
  unfold Blocks; infer_instance

instance (I : DAInstance) (mu : Nat → Nat) : Decidable (IsStable I mu) := by
  unfold IsStable; infer_instance

/-- Respondent `r` is achievable for proposer `p` when some stable
matching assigns them to each other. -/
def Achievable (I : DAInstance) (p r : Nat) : Prop :=
  ∃ mu, IsStable I mu ∧ mu p = r

/-! ## The loop invariant -/

/-- Invariant of the proposal loop. `slot_occ`/`slot_free`/`slot_inj`
describe the slot array; `matched` ties a non-single proposer to the
slot holding it; `sentinel_stop` says the own-sentinel entry is only
ever reached as the final (opt-out) proposal; `rejected` records that
every respondent that turned `p` down is either one that finds `p`
unacceptable or one whose seats are all filled by strictly preferred
proposers; `notach` sharpens this to: no stable matching assigns `p`
to a respondent that turned it down. -/
structure LoopInv (I : DAInstance) (s : DAState) : Prop where
  next_le : ∀ p, p < I.m → s.next_resp p ≤ I.n + 1
  sentinel_stop : ∀ p, p < I.m → ∀ j, j < s.next_resp p → I.pp p j = I.n →
    j + 1 = s.next_resp p ∧ s.is_single p = false
  nonsingle_pos : ∀ p, p < I.m → s.is_single p = false → 1 ≤ s.next_resp p
  occ_le : ∀ r, r < I.n → I.indptr r + s.nums_occupied r ≤ I.indptr (r + 1)
  slot_occ : ∀ r, r < I.n → ∀ i, I.indptr r ≤ i → i < I.indptr r + s.nums_occupied r →
    s.current_prop i < I.m ∧ s.is_single (s.current_prop i) = false ∧
    I.pp (s.current_prop i) (s.next_resp (s.current_prop i) - 1) = r ∧
    respRanks I r (s.current_prop i) < respRanks I r I.m
  slot_free : ∀ r, r < I.n → ∀ i, I.indptr r + s.nums_occupied r ≤ i →
    i < I.indptr (r + 1) → s.current_prop i = I.m
  slot_inj : ∀ r, r < I.n → ∀ i i', I.indptr r ≤ i → i < I.indptr r + s.nums_occupied r →
    I.indptr r ≤ i' → i' < I.indptr r + s.nums_occupied r →
    s.current_prop i = s.current_prop i' → i = i'
  matched : ∀ p, p < I.m → s.is_single p = false → I.pp p (s.next_resp p - 1) < I.n →
    ∃ i, I.indptr (I.pp p (s.next_resp p - 1)) ≤ i ∧
      i < I.indptr (I.pp p (s.next_resp p - 1)) +
          s.nums_occupied (I.pp p (s.next_resp p - 1)) ∧
      s.current_prop i = p
  rejected : ∀ p, p < I.m → ∀ j, j < s.next_resp p → I.pp p j < I.n →
    (∀ i, I.indptr (I.pp p j) ≤ i → i < I.indptr (I.pp p j) + s.nums_occupied (I.pp p j) →
      s.current_prop i ≠ p) →
    (respRanks I (I.pp p j) I.m < respRanks I (I.pp p j) p ∨
     (I.indptr (I.pp p j) + s.nums_occupied (I.pp p j) = I.indptr (I.pp p j + 1) ∧
      ∀ i, I.indptr (I.pp p j) ≤ i → i < I.indptr (I.pp p j + 1) →
        respRanks I (I.pp p j) (s.current_prop i) < respRanks I (I.pp p j) p))
  notach : ∀ p, p < I.m → ∀ j, j < s.next_resp p → I.pp p j < I.n →
    (∀ i, I.indptr (I.pp p j) ≤ i → i < I.indptr (I.pp p j) + s.nums_occupied (I.pp p j) →
      s.current_prop i ≠ p) →
    ¬ Achievable I p (I.pp p j)

theorem indptr_mono_le {I : DAInstance} (hV : ValidInstance I) :
    ∀ {a b : Nat}, a ≤ b → b ≤ I.n → I.indptr a ≤ I.indptr b := by
  intro a b
  induction b with
  | zero => intro h _; simp_all
  | succ b ih =>
      intro hab hb
      by_cases hq : a = b + 1
      · subst hq; exact le_refl _
      · have h1 : I.indptr a ≤ I.indptr b := ih (by omega) (by omega)
        have h2 : I.indptr b < I.indptr (b + 1) := hV.ipMono b (by omega)
        omega

/-- Slot ranges of distinct respondents are disjoint. -/
theorem ranges_disjoint {I : DAInstance} (hV : ValidInstance I) {r r' i : Nat}
    (hr : r < I.n) (hr' : r' < I.n) (hne : r ≠ r')
    (h1 : I.indptr r ≤ i) (h2 : i < I.indptr (r + 1)) :
    ¬ (I.indptr r' ≤ i ∧ i < I.indptr (r' + 1)) := by
  rintro ⟨h3, h4⟩
  rcases Nat.lt_or_ge r r' with hlt | hge
  · have : I.indptr (r + 1) ≤ I.indptr r' := indptr_mono_le hV (by omega) (by omega)
    omega
  · have hlt' : r' < r := by omega
    have : I.indptr (r' + 1) ≤ I.indptr r := indptr_mono_le hV (by omega) (by omega)
    omega

/-- A single proposer's cursor has not yet reached its own sentinel,
hence is at most `n` and the next proposal is well defined. -/
theorem single_next_le {I : DAInstance} {s : DAState} (hV : ValidInstance I)
    (hI : LoopInv I s) {p : Nat} (hp : p < I.m) (hs : s.is_single p = true) :
    s.next_resp p ≤ I.n := by
  obtain ⟨js, hjs, hrow⟩ := (hV.ppRow p hp).2.2 I.n (le_refl _)
  by_cases h : js < s.next_resp p
  · have := (hI.sentinel_stop p hp js h hrow).2
    rw [this] at hs; cases hs
  · omega

/-- A single proposer occupies no slot. -/
theorem single_not_held {I : DAInstance} {s : DAState}
    (hI : LoopInv I s) {p r i : Nat} (hr : r < I.n) (hp1 : I.indptr r ≤ i)
    (hp2 : i < I.indptr r + s.nums_occupied r) (hs : s.is_single p = true) :
    s.current_prop i ≠ p := by
  intro h
  have := (hI.slot_occ r hr i hp1 hp2).2.1
  rw [h, hs] at this; cases this

/-- A proposer is held in the slots of at most one respondent: any
slot holding it belongs to the respondent its cursor points at. -/
theorem held_target {I : DAInstance} {s : DAState}
    (hI : LoopInv I s) {r i : Nat} (hr : r < I.n) (hp1 : I.indptr r ≤ i)
    (hp2 : i < I.indptr r + s.nums_occupied r) :
    I.pp (s.current_prop i) (s.next_resp (s.current_prop i) - 1) = r :=
  (hI.slot_occ r hr i hp1 hp2).2.2.1

/-! ## Branch equations for one proposal step -/

theorem propose_not_single {I : DAInstance} {s : DAState} {p : Nat}
    (h1 : s.is_single p = false) : propose I s p = s := by
  simp [propose, h1]

theorem propose_sentinel {I : DAInstance} {s : DAState} {p : Nat}
    (h1 : s.is_single p = true) (h2 : I.pp p (s.next_resp p) = I.n) :
    propose I s p =
      { s with is_single := upd s.is_single p false,
               next_resp := upd s.next_resp p (s.next_resp p + 1) } := by
  simp [propose, h1, h2]

theorem propose_unacceptable {I : DAInstance} {s : DAState} {p : Nat}
    (h1 : s.is_single p = true) (h2 : I.pp p (s.next_resp p) ≠ I.n)
    (h3 : respRanks I (I.pp p (s.next_resp p)) I.m <
          respRanks I (I.pp p (s.next_resp p)) p) :
    propose I s p =
      { s with next_resp := upd s.next_resp p (s.next_resp p + 1) } := by
  simp [propose, h1, h2, h3]

theorem propose_vacant {I : DAInstance} {s : DAState} {p : Nat}
    (h1 : s.is_single p = true) (h2 : I.pp p (s.next_resp p) ≠ I.n)
    (h3 : ¬ respRanks I (I.pp p (s.next_resp p)) I.m <
          respRanks I (I.pp p (s.next_resp p)) p)
    (h4 : s.nums_occupied (I.pp p (s.next_resp p)) <
          I.indptr (I.pp p (s.next_resp p) + 1) - I.indptr (I.pp p (s.next_resp p))) :
    propose I s p =
      { s with
        current_prop := upd s.current_prop
          (I.indptr (I.pp p (s.next_resp p)) +
            s.nums_occupied (I.pp p (s.next_resp p))) p,
        is_single := upd s.is_single p false,
        nums_occupied := upd s.nums_occupied (I.pp p (s.next_resp p))
          (s.nums_occupied (I.pp p (s.next_resp p)) + 1),
        next_resp := upd s.next_resp p (s.next_resp p + 1) } := by
  simp [propose, h1, h2, h3, h4]

theorem propose_evict {I : DAInstance} {s : DAState} {p : Nat}
    (h1 : s.is_single p = true) (h2 : I.pp p (s.next_resp p) ≠ I.n)
    (h3 : ¬ respRanks I (I.pp p (s.next_resp p)) I.m <
          respRanks I (I.pp p (s.next_resp p)) p)
    (h4 : ¬ s.nums_occupied (I.pp p (s.next_resp p)) <
          I.indptr (I.pp p (s.next_resp p) + 1) - I.indptr (I.pp p (s.next_resp p)))
    (h5 : respRanks I (I.pp p (s.next_resp p)) p <
          respRanks I (I.pp p (s.next_resp p))
            (findLeast (respRanks I (I.pp p (s.next_resp p))) s.current_prop
              (I.indptr (I.pp p (s.next_resp p)))
              (I.indptr (I.pp p (s.next_resp p) + 1))).2) :
    propose I s p =
      { s with
        current_prop := upd s.current_prop
          (findLeast (respRanks I (I.pp p (s.next_resp p))) s.current_prop
            (I.indptr (I.pp p (s.next_resp p)))
            (I.indptr (I.pp p (s.next_resp p) + 1))).1 p,
        is_single := upd (upd s.is_single p false)
          (findLeast (respRanks I (I.pp p (s.next_resp p))) s.current_prop
            (I.indptr (I.pp p (s.next_resp p)))
            (I.indptr (I.pp p (s.next_resp p) + 1))).2 true,
        next_resp := upd s.next_resp p (s.next_resp p + 1) } := by
  simp [propose, h1, h2, h3, h4, h5]

theorem propose_reject_full {I : DAInstance} {s : DAState} {p : Nat}
    (h1 : s.is_single p = true) (h2 : I.pp p (s.next_resp p) ≠ I.n)
    (h3 : ¬ respRanks I (I.pp p (s.next_resp p)) I.m <
          respRanks I (I.pp p (s.next_resp p)) p)
    (h4 : ¬ s.nums_occupied (I.pp p (s.next_resp p)) <
          I.indptr (I.pp p (s.next_resp p) + 1) - I.indptr (I.pp p (s.next_resp p)))
    (h5 : ¬ respRanks I (I.pp p (s.next_resp p)) p <
          respRanks I (I.pp p (s.next_resp p))
            (findLeast (respRanks I (I.pp p (s.next_resp p))) s.current_prop
              (I.indptr (I.pp p (s.next_resp p)))
              (I.indptr (I.pp p (s.next_resp p) + 1))).2) :
    propose I s p =
      { s with next_resp := upd s.next_resp p (s.next_resp p + 1) } := by
  simp [propose, h1, h2, h3, h4, h5]

/-! ## Invariant preservation -/

theorem inv_propose_not_single {I : DAInstance} {s : DAState} {p : Nat}
    (hI : LoopInv I s) (h1 : s.is_single p = false) :
    LoopInv I (propose I s p) := by
  rw [propose_not_single h1]; exact hI

theorem inv_propose_sentinel {I : DAInstance} {s : DAState} {p : Nat}
    (hV : ValidInstance I) (hI : LoopInv I s) (hp : p < I.m)
    (h1 : s.is_single p = true) (h2 : I.pp p (s.next_resp p) = I.n) :
    LoopInv I (propose I s p) := by
  have hnle := single_next_le hV hI hp h1
  rw [propose_sentinel h1 h2]
  refine
    { next_le := ?_, sentinel_stop := ?_, nonsingle_pos := ?_, occ_le := ?_,
      slot_occ := ?_, slot_free := ?_, slot_inj := ?_, matched := ?_,
      rejected := ?_, notach := ?_ } <;> dsimp only
  · intro q hq
    by_cases hqp : q = p
    · subst hqp; simp [upd]; omega
    · simp [upd, hqp]; exact hI.next_le q hq
  · intro q hq j hj hrow
    by_cases hqp : q = p
    · subst hqp
      have hj' : j < s.next_resp q + 1 := by simpa [upd] using hj
      by_cases hjlt : j < s.next_resp q
      · have := (hI.sentinel_stop q hq j hjlt hrow).2
        rw [h1] at this; cases this
      · have hje : j = s.next_resp q := by omega
        subst hje; simp [upd]
    · simp only [upd, if_neg hqp] at hj ⊢
      exact hI.sentinel_stop q hq j hj hrow
  · intro q hq hns
    by_cases hqp : q = p
    · subst hqp; simp [upd]
    · simp only [upd, if_neg hqp] at hns ⊢
      exact hI.nonsingle_pos q hq hns
  · exact hI.occ_le
  · intro r hr i hi1 hi2
    obtain ⟨o1, o2, o3, o4⟩ := hI.slot_occ r hr i hi1 hi2
    have hne : s.current_prop i ≠ p := by
      intro h; rw [h, h1] at o2; cases o2
    simp only [upd, if_neg hne]
    exact ⟨o1, o2, o3, o4⟩
  · exact hI.slot_free
  · exact hI.slot_inj
  · intro q hq hns hlt
    by_cases hqp : q = p
    · subst hqp
      have hlt' : I.pp q (s.next_resp q) < I.n := by simpa [upd] using hlt
      rw [h2] at hlt'; omega
    · simp only [upd, if_neg hqp] at hns hlt ⊢
      exact hI.matched q hq hns hlt
  · intro q hq j hj hlt hnot
    by_cases hqp : q = p
    · subst hqp
      have hj' : j < s.next_resp q + 1 := by simpa [upd] using hj
      by_cases hjlt : j < s.next_resp q
      · exact hI.rejected q hq j hjlt hlt hnot
      · have hje : j = s.next_resp q := by omega
        subst hje; rw [h2] at hlt; omega
    · simp only [upd, if_neg hqp] at hj
      exact hI.rejected q hq j hj hlt hnot
  · intro q hq j hj hlt hnot
    by_cases hqp : q = p
    · subst hqp
      have hj' : j < s.next_resp q + 1 := by simpa [upd] using hj
      by_cases hjlt : j < s.next_resp q
      · exact hI.notach q hq j hjlt hlt hnot
      · have hje : j = s.next_resp q := by omega
        subst hje; rw [h2] at hlt; omega
    · simp only [upd, if_neg hqp] at hj
      exact hI.notach q hq j hj hlt hnot

theorem inv_propose_unacceptable {I : DAInstance} {s : DAState} {p : Nat}
    (hV : ValidInstance I) (hI : LoopInv I s) (hp : p < I.m)
    (h1 : s.is_single p = true) (h2 : I.pp p (s.next_resp p) ≠ I.n)
    (h3 : respRanks I (I.pp p (s.next_resp p)) I.m <
          respRanks I (I.pp p (s.next_resp p)) p) :
    LoopInv I (propose I s p) := by
  have hnle := single_next_le hV hI hp h1
  have hr_lt : I.pp p (s.next_resp p) < I.n := by
    have := (hV.ppRow p hp).1 (s.next_resp p) hnle
    omega
  rw [propose_unacceptable h1 h2 h3]
  refine
    { next_le := ?_, sentinel_stop := ?_, nonsingle_pos := ?_, occ_le := ?_,
      slot_occ := ?_, slot_free := ?_, slot_inj := ?_, matched := ?_,
      rejected := ?_, notach := ?_ } <;> dsimp only
  · intro q hq
    by_cases hqp : q = p
    · subst hqp; simp [upd]; omega
    · simp [upd, hqp]; exact hI.next_le q hq
  · intro q hq j hj hrow
    by_cases hqp : q = p
    · subst hqp
      have hj' : j < s.next_resp q + 1 := by simpa [upd] using hj
      by_cases hjlt : j < s.next_resp q
      · have := (hI.sentinel_stop q hq j hjlt hrow).2
        rw [h1] at this; cases this
      · have hje : j = s.next_resp q := by omega
        subst hje; exact absurd hrow h2
    · simp only [upd, if_neg hqp] at hj ⊢
      exact hI.sentinel_stop q hq j hj hrow
  · intro q hq hns
    by_cases hqp : q = p
    · subst hqp; rw [h1] at hns; cases hns
    · simp only [upd, if_neg hqp] at hns ⊢
      exact hI.nonsingle_pos q hq hns
  · exact hI.occ_le
  · intro r hr i hi1 hi2
    obtain ⟨o1, o2, o3, o4⟩ := hI.slot_occ r hr i hi1 hi2
    have hne : s.current_prop i ≠ p := by
      intro h; rw [h, h1] at o2; cases o2
    simp only [upd, if_neg hne]
    exact ⟨o1, o2, o3, o4⟩
  · exact hI.slot_free
  · exact hI.slot_inj
  · intro q hq hns hlt
    by_cases hqp : q = p
    · subst hqp; rw [h1] at hns; cases hns
    · simp only [upd, if_neg hqp] at hns hlt ⊢
      exact hI.matched q hq hns hlt
  · intro q hq j hj hlt hnot
    by_cases hqp : q = p
    · subst hqp
      have hj' : j < s.next_resp q + 1 := by simpa [upd] using hj
      by_cases hjlt : j < s.next_resp q
      · exact hI.rejected q hq j hjlt hlt hnot
      · have hje : j = s.next_resp q := by omega
        subst hje
        exact Or.inl h3
    · simp only [upd, if_neg hqp] at hj
      exact hI.rejected q hq j hj hlt hnot
  · intro q hq j hj hlt hnot
    by_cases hqp : q = p
    · subst hqp
      have hj' : j < s.next_resp q + 1 := by simpa [upd] using hj
      by_cases hjlt : j < s.next_resp q
      · exact hI.notach q hq j hjlt hlt hnot
      · have hje : j = s.next_resp q := by omega
        subst hje
        rintro ⟨mu, hmu, hmup⟩
        have hIR := hmu.2.2.2.1 q hq (by rw [hmup]; exact hr_lt)
        rw [hmup] at hIR
        omega
    · simp only [upd, if_neg hqp] at hj
      exact hI.notach q hq j hj hlt hnot

/-! ## Occupant sets and the core rejection argument -/

/-- The proposers currently held by respondent `r`, read off the
occupied slots `current_prop[indptr[r] : indptr[r]+nums_occupied[r]]`. -/
def occList (I : DAInstance) (s : DAState) (r : Nat) : List Nat :=
  (List.range' (I.indptr r) (s.nums_occupied r)).map s.current_prop

theorem mem_occList {I : DAInstance} {s : DAState} {r q : Nat} :
    q ∈ occList I s r ↔
    ∃ i, I.indptr r ≤ i ∧ i < I.indptr r + s.nums_occupied r ∧
      s.current_prop i = q := by
  simp only [occList, List.mem_map, List.mem_range'_1]
  constructor
  · rintro ⟨i, ⟨hi1, hi2⟩, hi3⟩; exact ⟨i, hi1, hi2, hi3⟩
  · rintro ⟨i, hi1, hi2, hi3⟩; exact ⟨i, ⟨hi1, hi2⟩, hi3⟩

theorem occList_nodup {I : DAInstance} {s : DAState} (hI : LoopInv I s)
    {r : Nat} (hr : r < I.n) : (occList I s r).Nodup := by
  refine List.Nodup.map_on ?_ (List.nodup_range' ..)
  intro x hx y hy hxy
  rw [List.mem_range'_1] at hx hy
  exact hI.slot_inj r hr x y hx.1 hx.2 hy.1 hy.2 hxy

theorem occList_length {I : DAInstance} {s : DAState} {r : Nat} :
    (occList I s r).length = s.nums_occupied r := by
  simp [occList]

/-- The core of the optimality argument: a proposer `pstar` that
respondent `r` has just turned down (or evicted) cannot be assigned to
`r` by any stable matching, because `r` is full with strictly
preferred competitors, one of whom would form a blocking pair with `r`
in any such matching. -/
theorem notAchievable_core {I : DAInstance} (hV : ValidInstance I)
    {r pstar : Nat} (hr : r < I.n) (hpstar : pstar < I.m)
    (T : Finset Nat) (hTcard : capFn I r ≤ T.card) (hTstar : pstar ∉ T)
    (hT : ∀ q ∈ T, q < I.m ∧ respRanks I r q < respRanks I r pstar ∧
      ∃ jq, jq ≤ I.n ∧ I.pp q jq = r ∧
        (∀ j, j < jq → I.pp q j ≠ I.n) ∧
        (∀ j, j < jq → ¬ Achievable I q (I.pp q j))) :
    ¬ Achievable I pstar r := by
  rintro ⟨mu, hmu, hmup⟩
  have hheld : heldCount I mu r ≤ capFn I r := hmu.2.1 r hr
  have hq_exists : ∃ q ∈ T, mu q ≠ r := by
    by_contra hcon
    push_neg at hcon
    have hsub : insert pstar T ⊆ (Finset.range I.m).filter (fun p => mu p = r) := by
      intro x hx
      rcases Finset.mem_insert.mp hx with hx | hx
      · subst hx
        exact Finset.mem_filter.mpr ⟨Finset.mem_range.mpr hpstar, hmup⟩
      · exact Finset.mem_filter.mpr
          ⟨Finset.mem_range.mpr (hT x hx).1, hcon x hx⟩
    have hcard := Finset.card_le_card hsub
    rw [Finset.card_insert_of_not_mem hTstar] at hcard
    unfold heldCount at hheld
    omega
  obtain ⟨q, hqT, hqne⟩ := hq_exists
  obtain ⟨hqm, hqrank, jq, hjq, hjqrow, hsent, hnach⟩ := hT q hqT
  have hprq : propRanks I q r = jq := by
    rw [← hjqrow]; exact propRanks_apply hV hqm hjq
  have hmuq_le : mu q ≤ I.n := hmu.1 q hqm
  have hjmu := propRanks_inv hV hqm hmuq_le
  have hpref : propRanks I q r < propRanks I q (mu q) := by
    rcases Nat.lt_trichotomy (propRanks I q (mu q)) (propRanks I q r) with h | h | h
    · exfalso
      rw [hprq] at h
      by_cases hmun : mu q = I.n
      · exact hsent (propRanks I q (mu q)) h (by rw [hjmu.2, hmun])
      · exact hnach (propRanks I q (mu q)) h
          (by rw [hjmu.2]; exact ⟨mu, hmu, rfl⟩)
    · exfalso
      apply hqne
      have : I.pp q (propRanks I q (mu q)) = I.pp q (propRanks I q r) := by rw [h]
      rw [hjmu.2, hprq, hjqrow] at this
      omega
    · exact h
  have hblocks : Blocks I mu q r :=
    ⟨hqne, hpref, Or.inr ⟨pstar, hpstar, hmup, hqrank⟩⟩
  exact hmu.2.2.2.2 q hqm r hr hblocks


theorem inv_propose_vacant {I : DAInstance} {s : DAState} {p : Nat}
    (hV : ValidInstance I) (hI : LoopInv I s) (hp : p < I.m)
    (h1 : s.is_single p = true) (h2 : I.pp p (s.next_resp p) ≠ I.n)
    (h3 : ¬ respRanks I (I.pp p (s.next_resp p)) I.m <
          respRanks I (I.pp p (s.next_resp p)) p)
    (h4 : s.nums_occupied (I.pp p (s.next_resp p)) <
          I.indptr (I.pp p (s.next_resp p) + 1) - I.indptr (I.pp p (s.next_resp p))) :
    LoopInv I (propose I s p) := by
  have hnle := single_next_le hV hI hp h1
  have hr_lt : I.pp p (s.next_resp p) < I.n := by
    have := (hV.ppRow p hp).1 (s.next_resp p) hnle
    omega
  have hi0_lt : I.indptr (I.pp p (s.next_resp p)) +
      s.nums_occupied (I.pp p (s.next_resp p)) <
      I.indptr (I.pp p (s.next_resp p) + 1) := by omega
  have hstrict : respRanks I (I.pp p (s.next_resp p)) p <
      respRanks I (I.pp p (s.next_resp p)) I.m :=
    respRanks_lt_of_le hV hr_lt (by omega) (le_refl _) (by omega) (by omega)
  rw [propose_vacant h1 h2 h3 h4]
  refine
    { next_le := ?_, sentinel_stop := ?_, nonsingle_pos := ?_, occ_le := ?_,
      slot_occ := ?_, slot_free := ?_, slot_inj := ?_, matched := ?_,
      rejected := ?_, notach := ?_ } <;> dsimp only
  · intro q hq
    by_cases hqp : q = p
    · subst hqp; rw [upd_self]; omega
    · rw [upd_ne hqp]; exact hI.next_le q hq
  · intro q hq j hj hrow
    by_cases hqp : q = p
    · subst hqp
      rw [upd_self] at hj
      by_cases hjlt : j < s.next_resp q
      · have := (hI.sentinel_stop q hq j hjlt hrow).2
        rw [h1] at this; cases this
      · have hje : j = s.next_resp q := by omega
        subst hje; exact absurd hrow h2
    · simp only [upd_ne hqp] at hj ⊢
      exact hI.sentinel_stop q hq j hj hrow
  · intro q hq hns
    by_cases hqp : q = p
    · subst hqp; rw [upd_self]; omega
    · simp only [upd_ne hqp] at hns ⊢
      exact hI.nonsingle_pos q hq hns
  · intro r' hr'
    by_cases hrr : r' = I.pp p (s.next_resp p)
    · rw [hrr, upd_self]; omega
    · rw [upd_ne hrr]; exact hI.occ_le r' hr'
  · intro r' hr' i hi1 hi2
    by_cases hrr : r' = I.pp p (s.next_resp p)
    · rw [hrr] at hi1 hi2 ⊢
      rw [upd_self] at hi2
      by_cases hii : i = I.indptr (I.pp p (s.next_resp p)) +
          s.nums_occupied (I.pp p (s.next_resp p))
      · rw [hii, upd_self]
        refine ⟨hp, upd_self, ?_, hstrict⟩
        rw [upd_self, Nat.add_sub_cancel]
      · have hi2' : i < I.indptr (I.pp p (s.next_resp p)) +
            s.nums_occupied (I.pp p (s.next_resp p)) := by omega
        obtain ⟨o1, o2, o3, o4⟩ := hI.slot_occ _ hr_lt i hi1 hi2'
        have hne : s.current_prop i ≠ p := by
          intro h; rw [h, h1] at o2; cases o2
        rw [upd_ne hii]
        simp only [upd_ne hne]
        exact ⟨o1, o2, o3, o4⟩
    · rw [upd_ne hrr] at hi2
      obtain ⟨o1, o2, o3, o4⟩ := hI.slot_occ r' hr' i hi1 hi2
      have hocc_le := hI.occ_le r' hr'
      have hii : i ≠ I.indptr (I.pp p (s.next_resp p)) +
          s.nums_occupied (I.pp p (s.next_resp p)) := by
        intro h
        exact ranges_disjoint hV hr' hr_lt hrr hi1 (by omega) ⟨by omega, by omega⟩
      have hne : s.current_prop i ≠ p := by
        intro h; rw [h, h1] at o2; cases o2
      rw [upd_ne hii]
      simp only [upd_ne hne]
      exact ⟨o1, o2, o3, o4⟩
  · intro r' hr' i hi1 hi2
    by_cases hrr : r' = I.pp p (s.next_resp p)
    · rw [hrr] at hi1 hi2
      rw [upd_self] at hi1
      have hii : i ≠ I.indptr (I.pp p (s.next_resp p)) +
          s.nums_occupied (I.pp p (s.next_resp p)) := by omega
      rw [upd_ne hii]
      exact hI.slot_free _ hr_lt i (by omega) hi2
    · rw [upd_ne hrr] at hi1
      have hocc_le := hI.occ_le r' hr'
      have hii : i ≠ I.indptr (I.pp p (s.next_resp p)) +
          s.nums_occupied (I.pp p (s.next_resp p)) := by
        intro h
        exact ranges_disjoint hV hr' hr_lt hrr (by omega) hi2 ⟨by omega, by omega⟩
      rw [upd_ne hii]
      exact hI.slot_free r' hr' i hi1 hi2
  · intro r' hr' i i' hi1 hi2 hi1' hi2' heq
    by_cases hrr : r' = I.pp p (s.next_resp p)
    · rw [hrr] at hi1 hi2 hi1' hi2'
      rw [upd_self] at hi2 hi2'
      by_cases hii : i = I.indptr (I.pp p (s.next_resp p)) +
          s.nums_occupied (I.pp p (s.next_resp p))
      · by_cases hii' : i' = I.indptr (I.pp p (s.next_resp p)) +
            s.nums_occupied (I.pp p (s.next_resp p))
        · rw [hii, hii']
        · exfalso
          rw [hii, upd_self, upd_ne hii'] at heq
          have o2 := (hI.slot_occ _ hr_lt i' hi1' (by omega)).2.1
          rw [← heq, h1] at o2; cases o2
      · by_cases hii' : i' = I.indptr (I.pp p (s.next_resp p)) +
            s.nums_occupied (I.pp p (s.next_resp p))
        · exfalso
          rw [hii', upd_self, upd_ne hii] at heq
          have o2 := (hI.slot_occ _ hr_lt i hi1 (by omega)).2.1
          rw [heq, h1] at o2; cases o2
        · rw [upd_ne hii, upd_ne hii'] at heq
          exact hI.slot_inj _ hr_lt i i' hi1 (by omega) hi1' (by omega) heq
    · rw [upd_ne hrr] at hi2 hi2'
      have hocc_le := hI.occ_le r' hr'
      have hii : i ≠ I.indptr (I.pp p (s.next_resp p)) +
          s.nums_occupied (I.pp p (s.next_resp p)) := by
        intro h
        exact ranges_disjoint hV hr' hr_lt hrr hi1 (by omega) ⟨by omega, by omega⟩
      have hii' : i' ≠ I.indptr (I.pp p (s.next_resp p)) +
          s.nums_occupied (I.pp p (s.next_resp p)) := by
        intro h
        exact ranges_disjoint hV hr' hr_lt hrr hi1' (by omega) ⟨by omega, by omega⟩
      rw [upd_ne hii, upd_ne hii'] at heq
      exact hI.slot_inj r' hr' i i' hi1 hi2 hi1' hi2' heq
  · intro q hq hns hlt
    by_cases hqp : q = p
    · subst hqp
      rw [upd_self, Nat.add_sub_cancel] at hlt ⊢
      refine ⟨I.indptr (I.pp q (s.next_resp q)) +
        s.nums_occupied (I.pp q (s.next_resp q)), by omega, ?_, upd_self⟩
      rw [upd_self]; omega
    · simp only [upd_ne hqp] at hns hlt ⊢
      obtain ⟨i, hi1, hi2, hi3⟩ := hI.matched q hq hns hlt
      by_cases hrr : I.pp q (s.next_resp q - 1) = I.pp p (s.next_resp p)
      · rw [hrr] at hi1 hi2 ⊢
        have hii : i ≠ I.indptr (I.pp p (s.next_resp p)) +
            s.nums_occupied (I.pp p (s.next_resp p)) := by omega
        exact ⟨i, hi1, by rw [upd_self]; omega, by rw [upd_ne hii]; exact hi3⟩
      · have hocc_le := hI.occ_le _ hlt
        have hii : i ≠ I.indptr (I.pp p (s.next_resp p)) +
            s.nums_occupied (I.pp p (s.next_resp p)) := by
          intro h
          exact ranges_disjoint hV hlt hr_lt hrr hi1 (by omega) ⟨by omega, by omega⟩
        exact ⟨i, hi1, by rw [upd_ne hrr]; exact hi2, by rw [upd_ne hii]; exact hi3⟩
  · intro q hq j hj hlt hnot
    by_cases hqp : q = p
    · subst hqp
      rw [upd_self] at hj
      by_cases hjlt : j < s.next_resp q
      · have hjr : I.pp q j ≠ I.pp q (s.next_resp q) := by
          intro h
          have := (hV.ppRow q hq).2.1 j (by omega) (s.next_resp q) hnle h
          omega
        have hold := hI.rejected q hq j hjlt hlt (fun i hia hib =>
          single_not_held hI hlt hia hib h1)
        rw [upd_ne hjr]
        rcases hold with hold | ⟨hfull, hall⟩
        · exact Or.inl hold
        · refine Or.inr ⟨hfull, ?_⟩
          intro i hia hib
          have hocc_le := hI.occ_le _ hlt
          have hii : i ≠ I.indptr (I.pp q (s.next_resp q)) +
              s.nums_occupied (I.pp q (s.next_resp q)) := by
            intro h
            exact ranges_disjoint hV hlt hr_lt hjr hia hib ⟨by omega, by omega⟩
          rw [upd_ne hii]
          exact hall i hia hib
      · exfalso
        have hje : j = s.next_resp q := by omega
        subst hje
        rw [upd_self] at hnot
        exact hnot (I.indptr (I.pp q (s.next_resp q)) +
          s.nums_occupied (I.pp q (s.next_resp q))) (by omega) (by omega) upd_self
    · simp only [upd_ne hqp] at hj
      by_cases hjr : I.pp q j = I.pp p (s.next_resp p)
      · have hnotold : ∀ i, I.indptr (I.pp q j) ≤ i →
            i < I.indptr (I.pp q j) + s.nums_occupied (I.pp q j) →
            s.current_prop i ≠ q := by
          intro i hia hib hcc
          have hb' : i < I.indptr (I.pp q j) +
              upd s.nums_occupied (I.pp p (s.next_resp p))
                (s.nums_occupied (I.pp p (s.next_resp p)) + 1) (I.pp q j) := by
            rw [hjr, upd_self]
            rw [hjr] at hib
            omega
          have hii : i ≠ I.indptr (I.pp p (s.next_resp p)) +
              s.nums_occupied (I.pp p (s.next_resp p)) := by
            rw [hjr] at hib; omega
          exact hnot i hia hb' (by rw [upd_ne hii]; exact hcc)
        have hold := hI.rejected q hq j hj hlt hnotold
        rcases hold with hold | ⟨hfull, hall⟩
        · exact Or.inl hold
        · exfalso
          rw [hjr] at hfull
          omega
      · have hocc_le := hI.occ_le _ hlt
        have hnotold : ∀ i, I.indptr (I.pp q j) ≤ i →
            i < I.indptr (I.pp q j) + s.nums_occupied (I.pp q j) →
            s.current_prop i ≠ q := by
          intro i hia hib hcc
          have hii : i ≠ I.indptr (I.pp p (s.next_resp p)) +
              s.nums_occupied (I.pp p (s.next_resp p)) := by
            intro h
            exact ranges_disjoint hV hlt hr_lt hjr hia (by omega) ⟨by omega, by omega⟩
          exact hnot i hia (by rw [upd_ne hjr]; exact hib)
            (by rw [upd_ne hii]; exact hcc)
        have hold := hI.rejected q hq j hj hlt hnotold
        rw [upd_ne hjr]
        rcases hold with hold | ⟨hfull, hall⟩
        · exact Or.inl hold
        · refine Or.inr ⟨hfull, ?_⟩
          intro i hia hib
          have hii : i ≠ I.indptr (I.pp p (s.next_resp p)) +
              s.nums_occupied (I.pp p (s.next_resp p)) := by
            intro h
            exact ranges_disjoint hV hlt hr_lt hjr hia hib ⟨by omega, by omega⟩
          rw [upd_ne hii]
          exact hall i hia hib
  · intro q hq j hj hlt hnot
    by_cases hqp : q = p
    · subst hqp
      rw [upd_self] at hj
      by_cases hjlt : j < s.next_resp q
      · exact hI.notach q hq j hjlt hlt (fun i hia hib =>
          single_not_held hI hlt hia hib h1)
      · exfalso
        have hje : j = s.next_resp q := by omega
        subst hje
        rw [upd_self] at hnot
        exact hnot (I.indptr (I.pp q (s.next_resp q)) +
          s.nums_occupied (I.pp q (s.next_resp q))) (by omega) (by omega) upd_self
    · simp only [upd_ne hqp] at hj
      by_cases hjr : I.pp q j = I.pp p (s.next_resp p)
      · have hnotold : ∀ i, I.indptr (I.pp q j) ≤ i →
            i < I.indptr (I.pp q j) + s.nums_occupied (I.pp q j) →
            s.current_prop i ≠ q := by
          intro i hia hib hcc
          have hb' : i < I.indptr (I.pp q j) +
              upd s.nums_occupied (I.pp p (s.next_resp p))
                (s.nums_occupied (I.pp p (s.next_resp p)) + 1) (I.pp q j) := by
            rw [hjr, upd_self]
            rw [hjr] at hib
            omega
          have hii : i ≠ I.indptr (I.pp p (s.next_resp p)) +
              s.nums_occupied (I.pp p (s.next_resp p)) := by
            rw [hjr] at hib; omega
          exact hnot i hia hb' (by rw [upd_ne hii]; exact hcc)
        exact hI.notach q hq j hj hlt hnotold
      · have hocc_le := hI.occ_le _ hlt
        have hnotold : ∀ i, I.indptr (I.pp q j) ≤ i →
            i < I.indptr (I.pp q j) + s.nums_occupied (I.pp q j) →
            s.current_prop i ≠ q := by
          intro i hia hib hcc
          have hii : i ≠ I.indptr (I.pp p (s.next_resp p)) +
              s.nums_occupied (I.pp p (s.next_resp p)) := by
            intro h
            exact ranges_disjoint hV hlt hr_lt hjr hia (by omega) ⟨by omega, by omega⟩
          exact hnot i hia (by rw [upd_ne hjr]; exact hib)
            (by rw [upd_ne hii]; exact hcc)
        exact hI.notach q hq j hj hlt hnotold

/-- A currently held proposer `q` of respondent `r`: it proposed to `r`
at cursor position `next_resp q - 1`, never passed its own sentinel
before that, and no respondent it was previously turned down by is
achievable for it. These are exactly the facts `notAchievable_core`
needs about a competitor. -/
theorem occupant_competitor {I : DAInstance} {s : DAState} (hV : ValidInstance I)
    (hI : LoopInv I s) {r q : Nat} (hr : r < I.n) (hq : q ∈ occList I s r) :
    q < I.m ∧ s.is_single q = false ∧
    ∃ jq, jq ≤ I.n ∧ jq = s.next_resp q - 1 ∧ I.pp q jq = r ∧
      (∀ j, j < jq → I.pp q j ≠ I.n) ∧
      (∀ j, j < jq → ¬ Achievable I q (I.pp q j)) := by
  obtain ⟨i, hi1, hi2, hi3⟩ := mem_occList.mp hq
  obtain ⟨o1, o2, o3, o4⟩ := hI.slot_occ r hr i hi1 hi2
  rw [hi3] at o1 o2 o3 o4
  have hpos := hI.nonsingle_pos q o1 o2
  have hle := hI.next_le q o1
  refine ⟨o1, o2, s.next_resp q - 1, by omega, rfl, o3, ?_, ?_⟩
  · intro j hj hrow
    have := (hI.sentinel_stop q o1 j (by omega) hrow).1
    omega
  · intro j hj
    have hjn : I.pp q j ≠ I.n := by
      intro hrow
      have := (hI.sentinel_stop q o1 j (by omega) hrow).1
      omega
    have hjlt : I.pp q j < I.n := by
      have := (hV.ppRow q o1).1 j (by omega)
      omega
    refine hI.notach q o1 j (by omega) hjlt ?_
    intro i' hia hib hcc
    have htar := held_target hI hjlt hia hib
    rw [hcc] at htar
    have hinj := (hV.ppRow q o1).2.1 (s.next_resp q - 1) (by omega) j (by omega)
      htar
    omega

theorem inv_propose_reject_full {I : DAInstance} {s : DAState} {p : Nat}
    (hV : ValidInstance I) (hI : LoopInv I s) (hp : p < I.m)
    (h1 : s.is_single p = true) (h2 : I.pp p (s.next_resp p) ≠ I.n)
    (h3 : ¬ respRanks I (I.pp p (s.next_resp p)) I.m <
          respRanks I (I.pp p (s.next_resp p)) p)
    (h4 : ¬ s.nums_occupied (I.pp p (s.next_resp p)) <
          I.indptr (I.pp p (s.next_resp p) + 1) - I.indptr (I.pp p (s.next_resp p)))
    (h5 : ¬ respRanks I (I.pp p (s.next_resp p)) p <
          respRanks I (I.pp p (s.next_resp p))
            (findLeast (respRanks I (I.pp p (s.next_resp p))) s.current_prop
              (I.indptr (I.pp p (s.next_resp p)))
              (I.indptr (I.pp p (s.next_resp p) + 1))).2) :
    LoopInv I (propose I s p) := by
  have hnle := single_next_le hV hI hp h1
  have hr_lt : I.pp p (s.next_resp p) < I.n := by
    have := (hV.ppRow p hp).1 (s.next_resp p) hnle
    omega
  have hipm := hV.ipMono _ hr_lt
  have hocc_le := hI.occ_le _ hr_lt
  have hfull_eq : I.indptr (I.pp p (s.next_resp p)) +
      s.nums_occupied (I.pp p (s.next_resp p)) =
      I.indptr (I.pp p (s.next_resp p) + 1) := by omega
  obtain ⟨hfl1, hfl2, hfl3, hfl4⟩ :=
    findLeast_spec (respRanks I (I.pp p (s.next_resp p))) s.current_prop
      (I.indptr (I.pp p (s.next_resp p)))
      (I.indptr (I.pp p (s.next_resp p) + 1)) hipm
  have hall_strict : ∀ i, I.indptr (I.pp p (s.next_resp p)) ≤ i →
      i < I.indptr (I.pp p (s.next_resp p) + 1) →
      respRanks I (I.pp p (s.next_resp p)) (s.current_prop i) <
      respRanks I (I.pp p (s.next_resp p)) p := by
    intro i hia hib
    obtain ⟨o1, _, _, _⟩ := hI.slot_occ _ hr_lt i hia (by omega)
    have hne : s.current_prop i ≠ p :=
      single_not_held hI hr_lt hia (by omega) h1
    have hle : respRanks I (I.pp p (s.next_resp p)) (s.current_prop i) ≤
        respRanks I (I.pp p (s.next_resp p)) p :=
      le_trans (hfl4 i hia hib) (by omega)
    exact respRanks_lt_of_le hV hr_lt (by omega) (by omega) hne hle
  have hnotach_p : ¬ Achievable I p (I.pp p (s.next_resp p)) := by
    refine notAchievable_core hV hr_lt hp
      (occList I s (I.pp p (s.next_resp p))).toFinset ?_ ?_ ?_
    · rw [List.toFinset_card_of_nodup (occList_nodup hI hr_lt), occList_length]
      unfold capFn
      omega
    · intro hmem
      obtain ⟨i, hi1, hi2, hcc⟩ := mem_occList.mp (List.mem_toFinset.mp hmem)
      exact single_not_held hI hr_lt hi1 hi2 h1 hcc
    · intro q hq
      have hq' := List.mem_toFinset.mp hq
      obtain ⟨hqm, hqns, jq, hjq, _, hjqr, hsent, hnach⟩ :=
        occupant_competitor hV hI hr_lt hq'
      obtain ⟨i, hi1, hi2, hcc⟩ := mem_occList.mp hq'
      have hqp : q ≠ p := by
        intro h; rw [h, h1] at hqns; cases hqns
      have hle : respRanks I (I.pp p (s.next_resp p)) q ≤
          respRanks I (I.pp p (s.next_resp p)) p := by
        have := hfl4 i hi1 (by omega)
        rw [hcc] at this
        omega
      exact ⟨hqm, respRanks_lt_of_le hV hr_lt (by omega) (by omega) hqp hle,
        jq, hjq, hjqr, hsent, hnach⟩
  rw [propose_reject_full h1 h2 h3 h4 h5]
  refine
    { next_le := ?_, sentinel_stop := ?_, nonsingle_pos := ?_, occ_le := ?_,
      slot_occ := ?_, slot_free := ?_, slot_inj := ?_, matched := ?_,
      rejected := ?_, notach := ?_ } <;> dsimp only
  · intro q hq
    by_cases hqp : q = p
    · subst hqp; rw [upd_self]; omega
    · rw [upd_ne hqp]; exact hI.next_le q hq
  · intro q hq j hj hrow
    by_cases hqp : q = p
    · subst hqp
      rw [upd_self] at hj
      by_cases hjlt : j < s.next_resp q
      · have := (hI.sentinel_stop q hq j hjlt hrow).2
        rw [h1] at this; cases this
      · have hje : j = s.next_resp q := by omega
        subst hje; exact absurd hrow h2
    · simp only [upd_ne hqp] at hj ⊢
      exact hI.sentinel_stop q hq j hj hrow
  · intro q hq hns
    by_cases hqp : q = p
    · subst hqp; rw [h1] at hns; cases hns
    · simp only [upd_ne hqp] at hns ⊢
      exact hI.nonsingle_pos q hq hns
  · exact hI.occ_le
  · intro r' hr' i hi1 hi2
    obtain ⟨o1, o2, o3, o4⟩ := hI.slot_occ r' hr' i hi1 hi2
    have hne : s.current_prop i ≠ p := by
      intro h; rw [h, h1] at o2; cases o2
    simp only [upd_ne hne]
    exact ⟨o1, o2, o3, o4⟩
  · exact hI.slot_free
  · exact hI.slot_inj
  · intro q hq hns hlt
    by_cases hqp : q = p
    · subst hqp; rw [h1] at hns; cases hns
    · simp only [upd_ne hqp] at hns hlt ⊢
      exact hI.matched q hq hns hlt
  · intro q hq j hj hlt hnot
    by_cases hqp : q = p
    · subst hqp
      rw [upd_self] at hj
      by_cases hjlt : j < s.next_resp q
      · exact hI.rejected q hq j hjlt hlt hnot
      · have hje : j = s.next_resp q := by omega
        subst hje
        refine Or.inr ⟨hfull_eq, ?_⟩
        intro i hia hib
        exact hall_strict i hia hib
    · simp only [upd_ne hqp] at hj
      exact hI.rejected q hq j hj hlt hnot
  · intro q hq j hj hlt hnot
    by_cases hqp : q = p
    · subst hqp
      rw [upd_self] at hj
      by_cases hjlt : j < s.next_resp q
      · exact hI.notach q hq j hjlt hlt hnot
      · have hje : j = s.next_resp q := by omega
        subst hje
        exact hnotach_p
    · simp only [upd_ne hqp] at hj
      exact hI.notach q hq j hj hlt hnot

theorem inv_propose_evict {I : DAInstance} {s : DAState} {p : Nat}
    (hV : ValidInstance I) (hI : LoopInv I s) (hp : p < I.m)
    (h1 : s.is_single p = true) (h2 : I.pp p (s.next_resp p) ≠ I.n)
    (h3 : ¬ respRanks I (I.pp p (s.next_resp p)) I.m <
          respRanks I (I.pp p (s.next_resp p)) p)
    (h4 : ¬ s.nums_occupied (I.pp p (s.next_resp p)) <
          I.indptr (I.pp p (s.next_resp p) + 1) - I.indptr (I.pp p (s.next_resp p)))
    (h5 : respRanks I (I.pp p (s.next_resp p)) p <
          respRanks I (I.pp p (s.next_resp p))
            (findLeast (respRanks I (I.pp p (s.next_resp p))) s.current_prop
              (I.indptr (I.pp p (s.next_resp p)))
              (I.indptr (I.pp p (s.next_resp p) + 1))).2) :
    LoopInv I (propose I s p) := by
  have hnle := single_next_le hV hI hp h1
  have hr_lt : I.pp p (s.next_resp p) < I.n := by
    have := (hV.ppRow p hp).1 (s.next_resp p) hnle
    omega
  have hipm := hV.ipMono _ hr_lt
  have hocc_le := hI.occ_le _ hr_lt
  have hfull_eq : I.indptr (I.pp p (s.next_resp p)) +
      s.nums_occupied (I.pp p (s.next_resp p)) =
      I.indptr (I.pp p (s.next_resp p) + 1) := by omega
  obtain ⟨hfl1, hfl2, hfl3, hfl4⟩ :=
    findLeast_spec (respRanks I (I.pp p (s.next_resp p))) s.current_prop
      (I.indptr (I.pp p (s.next_resp p)))
      (I.indptr (I.pp p (s.next_resp p) + 1)) hipm
  obtain ⟨ol1, ol2, ol3, ol4⟩ := hI.slot_occ _ hr_lt
    (findLeast (respRanks I (I.pp p (s.next_resp p))) s.current_prop
      (I.indptr (I.pp p (s.next_resp p)))
      (I.indptr (I.pp p (s.next_resp p) + 1))).1 hfl2 (by omega)
  rw [← hfl1] at ol1 ol2 ol3 ol4
  have hlp : (findLeast (respRanks I (I.pp p (s.next_resp p))) s.current_prop
      (I.indptr (I.pp p (s.next_resp p)))
      (I.indptr (I.pp p (s.next_resp p) + 1))).2 ≠ p := by
    intro h; rw [h, h1] at ol2; cases ol2
  have hplne : p ≠ (findLeast (respRanks I (I.pp p (s.next_resp p))) s.current_prop
      (I.indptr (I.pp p (s.next_resp p)))
      (I.indptr (I.pp p (s.next_resp p) + 1))).2 := fun h => hlp h.symm
  have hstrict : respRanks I (I.pp p (s.next_resp p)) p <
      respRanks I (I.pp p (s.next_resp p)) I.m := by omega
  have hleast_mem : (findLeast (respRanks I (I.pp p (s.next_resp p))) s.current_prop
      (I.indptr (I.pp p (s.next_resp p)))
      (I.indptr (I.pp p (s.next_resp p) + 1))).2 ∈
      (occList I s (I.pp p (s.next_resp p))).toFinset :=
    List.mem_toFinset.mpr (mem_occList.mpr ⟨_, hfl2, by omega, hfl1.symm⟩)
  have hp_notmem : p ∉ (occList I s (I.pp p (s.next_resp p))).toFinset := by
    intro hmem
    obtain ⟨i, hi1, hi2, hcc⟩ := mem_occList.mp (List.mem_toFinset.mp hmem)
    exact single_not_held hI hr_lt hi1 hi2 h1 hcc
  have hnotach_least : ¬ Achievable I
      (findLeast (respRanks I (I.pp p (s.next_resp p))) s.current_prop
        (I.indptr (I.pp p (s.next_resp p)))
        (I.indptr (I.pp p (s.next_resp p) + 1))).2 (I.pp p (s.next_resp p)) := by
    refine notAchievable_core hV hr_lt ol1
      (insert p ((occList I s (I.pp p (s.next_resp p))).toFinset.erase
        (findLeast (respRanks I (I.pp p (s.next_resp p))) s.current_prop
          (I.indptr (I.pp p (s.next_resp p)))
          (I.indptr (I.pp p (s.next_resp p) + 1))).2)) ?_ ?_ ?_
    · rw [Finset.card_insert_of_not_mem
        (fun hmem => hp_notmem (Finset.mem_of_mem_erase hmem)),
        Finset.card_erase_of_mem hleast_mem,
        List.toFinset_card_of_nodup (occList_nodup hI hr_lt), occList_length]
      unfold capFn
      omega
    · intro hmem
      rcases Finset.mem_insert.mp hmem with h | h
      · exact hlp h
      · exact Finset.not_mem_erase _ _ h
    · intro q hq
      rcases Finset.mem_insert.mp hq with h | h
      · subst h
        refine ⟨hp, h5, s.next_resp q, hnle, rfl, ?_, ?_⟩
        · intro j hj hrow
          have := (hI.sentinel_stop q hp j (by omega) hrow).2
          rw [h1] at this; cases this
        · intro j hj
          have hjn : I.pp q j ≠ I.n := by
            intro hrow
            have := (hI.sentinel_stop q hp j (by omega) hrow).2
            rw [h1] at this; cases this
          have hjlt2 : I.pp q j < I.n := by
            have := (hV.ppRow q hp).1 j (by omega)
            omega
          exact hI.notach q hp j (by omega) hjlt2 (fun i hia hib =>
            single_not_held hI hjlt2 hia hib h1)
      · have hq' := List.mem_toFinset.mp (Finset.mem_of_mem_erase h)
        have hqne := Finset.ne_of_mem_erase h
        obtain ⟨hqm, hqns, jq, hjq, _, hjqr, hsent, hnach⟩ :=
          occupant_competitor hV hI hr_lt hq'
        obtain ⟨i, hi1, hi2, hcc⟩ := mem_occList.mp hq'
        have hle : respRanks I (I.pp p (s.next_resp p)) q ≤
            respRanks I (I.pp p (s.next_resp p))
              (findLeast (respRanks I (I.pp p (s.next_resp p))) s.current_prop
                (I.indptr (I.pp p (s.next_resp p)))
                (I.indptr (I.pp p (s.next_resp p) + 1))).2 := by
          have := hfl4 i hi1 (by omega)
          rw [hcc] at this
          exact this
        exact ⟨hqm, respRanks_lt_of_le hV hr_lt (by omega) (by omega) hqne hle,
          jq, hjq, hjqr, hsent, hnach⟩
  rw [propose_evict h1 h2 h3 h4 h5]
  refine
    { next_le := ?_, sentinel_stop := ?_, nonsingle_pos := ?_, occ_le := ?_,
      slot_occ := ?_, slot_free := ?_, slot_inj := ?_, matched := ?_,
      rejected := ?_, notach := ?_ } <;> dsimp only
  · intro q hq
    by_cases hqp : q = p
    · subst hqp; rw [upd_self]; omega
    · rw [upd_ne hqp]; exact hI.next_le q hq
  · intro q hq j hj hrow
    by_cases hqp : q = p
    · subst hqp
      rw [upd_self] at hj
      by_cases hjlt : j < s.next_resp q
      · have := (hI.sentinel_stop q hq j hjlt hrow).2
        rw [h1] at this; cases this
      · have hje : j = s.next_resp q := by omega
        subst hje; exact absurd hrow h2
    · rw [upd_ne hqp] at hj
      by_cases hql : q = (findLeast (respRanks I (I.pp p (s.next_resp p)))
          s.current_prop (I.indptr (I.pp p (s.next_resp p)))
          (I.indptr (I.pp p (s.next_resp p) + 1))).2
      · exfalso
        have e1 := (hI.sentinel_stop q hq j hj hrow).1
        have htar : I.pp q (s.next_resp q - 1) = I.pp p (s.next_resp p) := by
          rw [hql]; exact ol3
        have hj_eq : j = s.next_resp q - 1 := by omega
        rw [hj_eq, htar] at hrow
        omega
      · have old := hI.sentinel_stop q hq j hj hrow
        refine ⟨by rw [upd_ne hqp]; exact old.1, ?_⟩
        rw [upd_ne hql, upd_ne hqp]
        exact old.2
  · intro q hq hns
    by_cases hqp : q = p
    · subst hqp; rw [upd_self]; omega
    · rw [upd_ne hqp]
      by_cases hql : q = (findLeast (respRanks I (I.pp p (s.next_resp p)))
          s.current_prop (I.indptr (I.pp p (s.next_resp p)))
          (I.indptr (I.pp p (s.next_resp p) + 1))).2
      · rw [hql, upd_self] at hns; cases hns
      · rw [upd_ne hql, upd_ne hqp] at hns
        exact hI.nonsingle_pos q hq hns
  · exact hI.occ_le
  · intro r' hr' i hi1 hi2
    by_cases hii : i = (findLeast (respRanks I (I.pp p (s.next_resp p)))
        s.current_prop (I.indptr (I.pp p (s.next_resp p)))
        (I.indptr (I.pp p (s.next_resp p) + 1))).1
    · have hrr : r' = I.pp p (s.next_resp p) := by
        by_contra hcon
        refine ranges_disjoint hV hr' hr_lt hcon hi1
          (by have := hI.occ_le r' hr'; omega) ⟨?_, ?_⟩
        · rw [hii]; exact hfl2
        · rw [hii]; exact hfl3
      subst hrr
      rw [hii, upd_self]
      refine ⟨hp, ?_, ?_, hstrict⟩
      · rw [upd_ne hplne, upd_self]
      · rw [upd_self, Nat.add_sub_cancel]
    · rw [upd_ne hii]
      obtain ⟨o1, o2, o3, o4⟩ := hI.slot_occ r' hr' i hi1 hi2
      have hq0p : s.current_prop i ≠ p := by
        intro h; rw [h, h1] at o2; cases o2
      have hq0l : s.current_prop i ≠
          (findLeast (respRanks I (I.pp p (s.next_resp p))) s.current_prop
            (I.indptr (I.pp p (s.next_resp p)))
            (I.indptr (I.pp p (s.next_resp p) + 1))).2 := by
        intro hcc
        have htar2 := o3
        rw [hcc] at htar2
        rw [ol3] at htar2
        subst htar2
        exact hii (hI.slot_inj _ hr_lt i _ hi1 hi2 hfl2 (by omega)
          (by rw [hcc]; exact hfl1))
      refine ⟨o1, ?_, ?_, o4⟩
      · rw [upd_ne hq0l, upd_ne hq0p]; exact o2
      · rw [upd_ne hq0p]; exact o3
  · intro r' hr' i hi1 hi2
    by_cases hrr : r' = I.pp p (s.next_resp p)
    · rw [hrr] at hi1 hi2
      omega
    · have hii : i ≠ (findLeast (respRanks I (I.pp p (s.next_resp p)))
          s.current_prop (I.indptr (I.pp p (s.next_resp p)))
          (I.indptr (I.pp p (s.next_resp p) + 1))).1 := by
        intro h
        refine ranges_disjoint hV hr' hr_lt hrr
          (by have := hI.occ_le r' hr'; omega) hi2 ⟨?_, ?_⟩
        · rw [h]; exact hfl2
        · rw [h]; exact hfl3
      rw [upd_ne hii]
      exact hI.slot_free r' hr' i hi1 hi2
  · intro r' hr' i i' hi1 hi2 hi1' hi2' heq
    by_cases hrr : r' = I.pp p (s.next_resp p)
    · rw [hrr] at hi1 hi2 hi1' hi2'
      by_cases hii : i = (findLeast (respRanks I (I.pp p (s.next_resp p)))
          s.current_prop (I.indptr (I.pp p (s.next_resp p)))
          (I.indptr (I.pp p (s.next_resp p) + 1))).1
      · by_cases hii' : i' = (findLeast (respRanks I (I.pp p (s.next_resp p)))
            s.current_prop (I.indptr (I.pp p (s.next_resp p)))
            (I.indptr (I.pp p (s.next_resp p) + 1))).1
        · rw [hii, hii']
        · exfalso
          rw [hii, upd_self, upd_ne hii'] at heq
          exact single_not_held hI hr_lt hi1' hi2' h1 heq.symm
      · by_cases hii' : i' = (findLeast (respRanks I (I.pp p (s.next_resp p)))
            s.current_prop (I.indptr (I.pp p (s.next_resp p)))
            (I.indptr (I.pp p (s.next_resp p) + 1))).1
        · exfalso
          rw [hii', upd_self, upd_ne hii] at heq
          exact single_not_held hI hr_lt hi1 hi2 h1 heq
        · rw [upd_ne hii, upd_ne hii'] at heq
          exact hI.slot_inj _ hr_lt i i' hi1 hi2 hi1' hi2' heq
    · have hii : i ≠ (findLeast (respRanks I (I.pp p (s.next_resp p)))
          s.current_prop (I.indptr (I.pp p (s.next_resp p)))
          (I.indptr (I.pp p (s.next_resp p) + 1))).1 := by
        intro h
        refine ranges_disjoint hV hr' hr_lt hrr hi1
          (by have := hI.occ_le r' hr'; omega) ⟨?_, ?_⟩
        · rw [h]; exact hfl2
        · rw [h]; exact hfl3
      have hii' : i' ≠ (findLeast (respRanks I (I.pp p (s.next_resp p)))
          s.current_prop (I.indptr (I.pp p (s.next_resp p)))
          (I.indptr (I.pp p (s.next_resp p) + 1))).1 := by
        intro h
        refine ranges_disjoint hV hr' hr_lt hrr hi1'
          (by have := hI.occ_le r' hr'; omega) ⟨?_, ?_⟩
        · rw [h]; exact hfl2
        · rw [h]; exact hfl3
      rw [upd_ne hii, upd_ne hii'] at heq
      exact hI.slot_inj r' hr' i i' hi1 hi2 hi1' hi2' heq
  · intro q hq hns hlt
    by_cases hqp : q = p
    · subst hqp
      rw [upd_self, Nat.add_sub_cancel] at hlt ⊢
      exact ⟨_, hfl2, by omega, by rw [upd_self]⟩
    · by_cases hql : q = (findLeast (respRanks I (I.pp p (s.next_resp p)))
          s.current_prop (I.indptr (I.pp p (s.next_resp p)))
          (I.indptr (I.pp p (s.next_resp p) + 1))).2
      · rw [hql, upd_self] at hns; cases hns
      · rw [upd_ne hql, upd_ne hqp] at hns
        rw [upd_ne hqp] at hlt ⊢
        obtain ⟨i, hi1, hi2, hi3⟩ := hI.matched q hq hns hlt
        have hii : i ≠ (findLeast (respRanks I (I.pp p (s.next_resp p)))
            s.current_prop (I.indptr (I.pp p (s.next_resp p)))
            (I.indptr (I.pp p (s.next_resp p) + 1))).1 := by
          intro h
          rw [h] at hi3
          exact hql (hfl1.trans hi3).symm
        exact ⟨i, hi1, hi2, by rw [upd_ne hii]; exact hi3⟩
  · intro q hq j hj hlt hnot
    by_cases hqp : q = p
    · subst hqp
      rw [upd_self] at hj
      by_cases hjlt : j < s.next_resp q
      · have hjr : I.pp q j ≠ I.pp q (s.next_resp q) := by
          intro h
          have := (hV.ppRow q hq).2.1 j (by omega) (s.next_resp q) hnle h
          omega
        have hold := hI.rejected q hq j hjlt hlt (fun i hia hib =>
          single_not_held hI hlt hia hib h1)
        rcases hold with hold | ⟨hfull, hall⟩
        · exact Or.inl hold
        · refine Or.inr ⟨hfull, ?_⟩
          intro i hia hib
          have hii : i ≠ (findLeast (respRanks I (I.pp q (s.next_resp q)))
              s.current_prop (I.indptr (I.pp q (s.next_resp q)))
              (I.indptr (I.pp q (s.next_resp q) + 1))).1 := by
            intro h
            refine ranges_disjoint hV hlt hr_lt hjr hia hib ⟨?_, ?_⟩
            · rw [h]; exact hfl2
            · rw [h]; exact hfl3
          rw [upd_ne hii]
          exact hall i hia hib
      · exfalso
        have hje : j = s.next_resp q := by omega
        subst hje
        exact hnot _ hfl2 (by omega) upd_self
    · rw [upd_ne hqp] at hj
      by_cases hjr : I.pp q j = I.pp p (s.next_resp p)
      · by_cases hql : q = (findLeast (respRanks I (I.pp p (s.next_resp p)))
            s.current_prop (I.indptr (I.pp p (s.next_resp p)))
            (I.indptr (I.pp p (s.next_resp p) + 1))).2
        · rw [hjr]
          refine Or.inr ⟨hfull_eq, ?_⟩
          intro i hia hib
          by_cases hii : i = (findLeast (respRanks I (I.pp p (s.next_resp p)))
              s.current_prop (I.indptr (I.pp p (s.next_resp p)))
              (I.indptr (I.pp p (s.next_resp p) + 1))).1
          · rw [hii, upd_self, hql]
            exact h5
          · rw [upd_ne hii]
            have hle := hfl4 i hia hib
            have hne : s.current_prop i ≠
                (findLeast (respRanks I (I.pp p (s.next_resp p))) s.current_prop
                  (I.indptr (I.pp p (s.next_resp p)))
                  (I.indptr (I.pp p (s.next_resp p) + 1))).2 := by
              intro hcc
              exact hii (hI.slot_inj _ hr_lt i _ hia (by omega) hfl2 (by omega)
                (by rw [hcc]; exact hfl1))
            have o1 := (hI.slot_occ _ hr_lt i hia (by omega)).1
            rw [hql]
            exact respRanks_lt_of_le hV hr_lt (by omega) (by omega) hne hle
        · have hnotold : ∀ i, I.indptr (I.pp q j) ≤ i →
              i < I.indptr (I.pp q j) + s.nums_occupied (I.pp q j) →
              s.current_prop i ≠ q := by
            intro i hia hib hcc
            by_cases hii : i = (findLeast (respRanks I (I.pp p (s.next_resp p)))
                s.current_prop (I.indptr (I.pp p (s.next_resp p)))
                (I.indptr (I.pp p (s.next_resp p) + 1))).1
            · rw [hii] at hcc
              exact hql (hfl1.trans hcc).symm
            · exact hnot i hia hib (by rw [upd_ne hii]; exact hcc)
          have hold := hI.rejected q hq j hj hlt hnotold
          rcases hold with hold | ⟨hfull, hall⟩
          · exact Or.inl hold
          · refine Or.inr ⟨hfull, ?_⟩
            intro i hia hib
            by_cases hii : i = (findLeast (respRanks I (I.pp p (s.next_resp p)))
                s.current_prop (I.indptr (I.pp p (s.next_resp p)))
                (I.indptr (I.pp p (s.next_resp p) + 1))).1
            · rw [hii, upd_self]
              have hall' := hall
                (findLeast (respRanks I (I.pp p (s.next_resp p))) s.current_prop
                  (I.indptr (I.pp p (s.next_resp p)))
                  (I.indptr (I.pp p (s.next_resp p) + 1))).1
                (by rw [hjr]; exact hfl2) (by rw [hjr]; exact hfl3)
              rw [← hfl1] at hall'
              rw [hjr] at hall' ⊢
              omega
            · rw [upd_ne hii]
              exact hall i hia hib
      · have hnotold : ∀ i, I.indptr (I.pp q j) ≤ i →
            i < I.indptr (I.pp q j) + s.nums_occupied (I.pp q j) →
            s.current_prop i ≠ q := by
          intro i hia hib hcc
          have hii : i ≠ (findLeast (respRanks I (I.pp p (s.next_resp p)))
              s.current_prop (I.indptr (I.pp p (s.next_resp p)))
              (I.indptr (I.pp p (s.next_resp p) + 1))).1 := by
            intro h
            refine ranges_disjoint hV hlt hr_lt hjr hia
              (by have := hI.occ_le _ hlt; omega) ⟨?_, ?_⟩
            · rw [h]; exact hfl2
            · rw [h]; exact hfl3
          exact hnot i hia hib (by rw [upd_ne hii]; exact hcc)
        have hold := hI.rejected q hq j hj hlt hnotold
        rcases hold with hold | ⟨hfull, hall⟩
        · exact Or.inl hold
        · refine Or.inr ⟨hfull, ?_⟩
          intro i hia hib
          have hii : i ≠ (findLeast (respRanks I (I.pp p (s.next_resp p)))
              s.current_prop (I.indptr (I.pp p (s.next_resp p)))
              (I.indptr (I.pp p (s.next_resp p) + 1))).1 := by
            intro h
            refine ranges_disjoint hV hlt hr_lt hjr hia hib ⟨?_, ?_⟩
            · rw [h]; exact hfl2
            · rw [h]; exact hfl3
          rw [upd_ne hii]
          exact hall i hia hib
  · intro q hq j hj hlt hnot
    by_cases hqp : q = p
    · subst hqp
      rw [upd_self] at hj
      by_cases hjlt : j < s.next_resp q
      · exact hI.notach q hq j hjlt hlt (fun i hia hib =>
          single_not_held hI hlt hia hib h1)
      · exfalso
        have hje : j = s.next_resp q := by omega
        subst hje
        exact hnot _ hfl2 (by omega) upd_self
    · rw [upd_ne hqp] at hj
      by_cases hjr : I.pp q j = I.pp p (s.next_resp p)
      · by_cases hql : q = (findLeast (respRanks I (I.pp p (s.next_resp p)))
            s.current_prop (I.indptr (I.pp p (s.next_resp p)))
            (I.indptr (I.pp p (s.next_resp p) + 1))).2
        · rw [hjr, hql]
          exact hnotach_least
        · have hnotold : ∀ i, I.indptr (I.pp q j) ≤ i →
              i < I.indptr (I.pp q j) + s.nums_occupied (I.pp q j) →
              s.current_prop i ≠ q := by
            intro i hia hib hcc
            by_cases hii : i = (findLeast (respRanks I (I.pp p (s.next_resp p)))
                s.current_prop (I.indptr (I.pp p (s.next_resp p)))
                (I.indptr (I.pp p (s.next_resp p) + 1))).1
            · rw [hii] at hcc
              exact hql (hfl1.trans hcc).symm
            · exact hnot i hia hib (by rw [upd_ne hii]; exact hcc)
          exact hI.notach q hq j hj hlt hnotold
      · have hnotold : ∀ i, I.indptr (I.pp q j) ≤ i →
            i < I.indptr (I.pp q j) + s.nums_occupied (I.pp q j) →
            s.current_prop i ≠ q := by
          intro i hia hib hcc
          have hii : i ≠ (findLeast (respRanks I (I.pp p (s.next_resp p)))
              s.current_prop (I.indptr (I.pp p (s.next_resp p)))
              (I.indptr (I.pp p (s.next_resp p) + 1))).1 := by
            intro h
            refine ranges_disjoint hV hlt hr_lt hjr hia
              (by have := hI.occ_le _ hlt; omega) ⟨?_, ?_⟩
            · rw [h]; exact hfl2
            · rw [h]; exact hfl3
          exact hnot i hia hib (by rw [upd_ne hii]; exact hcc)
        exact hI.notach q hq j hj hlt hnotold

/-! ## The step relation: master preservation and structural facts -/

theorem propose_inv {I : DAInstance} {s : DAState} {p : Nat}
    (hV : ValidInstance I) (hI : LoopInv I s) (hp : p < I.m) :
    LoopInv I (propose I s p) := by
  by_cases h1 : s.is_single p = true
  · by_cases h2 : I.pp p (s.next_resp p) = I.n
    · exact inv_propose_sentinel hV hI hp h1 h2
    · by_cases h3 : respRanks I (I.pp p (s.next_resp p)) I.m <
          respRanks I (I.pp p (s.next_resp p)) p
      · exact inv_propose_unacceptable hV hI hp h1 h2 h3
      · by_cases h4 : s.nums_occupied (I.pp p (s.next_resp p)) <
            I.indptr (I.pp p (s.next_resp p) + 1) - I.indptr (I.pp p (s.next_resp p))
        · exact inv_propose_vacant hV hI hp h1 h2 h3 h4
        · by_cases h5 : respRanks I (I.pp p (s.next_resp p)) p <
              respRanks I (I.pp p (s.next_resp p))
                (findLeast (respRanks I (I.pp p (s.next_resp p))) s.current_prop
                  (I.indptr (I.pp p (s.next_resp p)))
                  (I.indptr (I.pp p (s.next_resp p) + 1))).2
          · exact inv_propose_evict hV hI hp h1 h2 h3 h4 h5
          · exact inv_propose_reject_full hV hI hp h1 h2 h3 h4 h5
  · exact inv_propose_not_single hI (Bool.eq_false_iff.mpr h1)

/-- The cursor array after one proposal step: only the acting single
proposer's cursor moves, and it moves up by one. -/
theorem propose_next_resp_eq (I : DAInstance) (s : DAState) (p : Nat) :
    (propose I s p).next_resp =
      if s.is_single p = true then upd s.next_resp p (s.next_resp p + 1)
      else s.next_resp := by
  unfold propose
  dsimp only
  split_ifs <;> rfl

theorem propose_next_mono (I : DAInstance) (s : DAState) (p q : Nat) :
    s.next_resp q ≤ (propose I s p).next_resp q := by
  rw [propose_next_resp_eq]
  split_ifs
  · by_cases hq : q = p
    · subst hq; rw [upd_self]; omega
    · rw [upd_ne hq]
  · exact le_refl _

theorem propose_next_other (I : DAInstance) (s : DAState) {p q : Nat}
    (hq : q ≠ p) : (propose I s p).next_resp q = s.next_resp q := by
  rw [propose_next_resp_eq]
  split_ifs
  · rw [upd_ne hq]
  · rfl

theorem propose_single_incr (I : DAInstance) (s : DAState) {p : Nat}
    (h1 : s.is_single p = true) :
    (propose I s p).next_resp p = s.next_resp p + 1 := by
  rw [propose_next_resp_eq, if_pos h1, upd_self]

/-- A proposal by `p` never clears another proposer's single flag. -/
theorem propose_is_single_true (I : DAInstance) (s : DAState) {p q : Nat}
    (hq : q ≠ p) (hsq : s.is_single q = true) :
    (propose I s p).is_single q = true := by
  unfold propose
  dsimp only
  split_ifs
  · show (upd s.is_single p false) q = true
    rw [upd_ne hq]; exact hsq
  · exact hsq
  · show (upd s.is_single p false) q = true
    rw [upd_ne hq]; exact hsq
  · show (upd (upd s.is_single p false)
      (findLeast (respRanks I (I.pp p (s.next_resp p))) s.current_prop
        (I.indptr (I.pp p (s.next_resp p)))
        (I.indptr (I.pp p (s.next_resp p) + 1))).2 true) q = true
    by_cases hql : q = (findLeast (respRanks I (I.pp p (s.next_resp p)))
        s.current_prop (I.indptr (I.pp p (s.next_resp p)))
        (I.indptr (I.pp p (s.next_resp p) + 1))).2
    · rw [hql, upd_self]
    · rw [upd_ne hql, upd_ne hq]; exact hsq
  · exact hsq
  · exact hsq

/-! ## Termination -/

/-- Sum of all cursors; every proposal increments it by exactly one,
so it counts the proposals made so far. -/
def sumNext (I : DAInstance) (s : DAState) : Nat :=
  (Finset.range I.m).sum (fun p => s.next_resp p)

theorem foldl_next_mono (I : DAInstance) (L : List Nat) :
    ∀ s q, s.next_resp q ≤ (L.foldl (propose I) s).next_resp q := by
  induction L with
  | nil => intro s q; exact le_refl _
  | cons a L ih =>
      intro s q
      exact le_trans (propose_next_mono I s a q) (ih (propose I s a) q)

theorem foldl_single_incr (I : DAInstance) (L : List Nat) :
    ∀ s p, p ∈ L → s.is_single p = true →
    s.next_resp p + 1 ≤ (L.foldl (propose I) s).next_resp p := by
  induction L with
  | nil => intro s p h; cases h
  | cons a L ih =>
      intro s p hmem hs
      simp only [List.foldl_cons]
      by_cases hpa : p = a
      · subst hpa
        have h := propose_single_incr I s hs
        exact le_trans (le_of_eq h.symm) (foldl_next_mono I L (propose I s p) p)
      · rcases List.mem_cons.mp hmem with h | h
        · exact absurd h hpa
        · have hs' := propose_is_single_true I s hpa hs
          have hne := propose_next_other I s hpa
          rw [← hne]
          exact ih (propose I s a) p h hs'

theorem foldl_inv {I : DAInstance} (hV : ValidInstance I) (L : List Nat)
    (hL : ∀ p ∈ L, p < I.m) :
    ∀ s, LoopInv I s → LoopInv I (L.foldl (propose I) s) := by
  induction L with
  | nil => intro s hI; exact hI
  | cons a L ih =>
      intro s hI
      have ha : a < I.m := hL a (List.mem_cons_self a L)
      exact ih (fun p hp => hL p (List.mem_cons.mpr (Or.inr hp)))
        (propose I s a) (propose_inv hV hI ha)

theorem onePass_inv {I : DAInstance} (hV : ValidInstance I) {s : DAState}
    (hI : LoopInv I s) : LoopInv I (onePass I s) :=
  foldl_inv hV (List.range I.m) (fun _ hp => List.mem_range.mp hp) s hI

theorem countSingle_pos_iff (I : DAInstance) (s : DAState) :
    0 < countSingle I s ↔ ∃ p, p < I.m ∧ s.is_single p = true := by
  unfold countSingle
  rw [List.countP_pos_iff]
  constructor
  · rintro ⟨p, hp, hs⟩
    exact ⟨p, List.mem_range.mp hp, by simpa using hs⟩
  · rintro ⟨p, hp, hs⟩
    exact ⟨p, List.mem_range.mpr hp, by simpa using hs⟩

theorem countSingle_zero {I : DAInstance} {s : DAState}
    (h : countSingle I s = 0) : ∀ p, p < I.m → s.is_single p = false := by
  intro p hp
  unfold countSingle at h
  have := List.countP_eq_zero.mp h p (List.mem_range.mpr hp)
  simpa using this

theorem sumNext_lt_onePass (I : DAInstance) (s : DAState)
    (h : 0 < countSingle I s) : sumNext I s < sumNext I (onePass I s) := by
  obtain ⟨p, hp, hs⟩ := (countSingle_pos_iff I s).mp h
  refine Finset.sum_lt_sum (fun q _ => foldl_next_mono I (List.range I.m) s q) ?_
  refine ⟨p, Finset.mem_range.mpr hp, ?_⟩
  have := foldl_single_incr I (List.range I.m) s p (List.mem_range.mpr hp) hs
  unfold onePass
  omega

theorem sumNext_le {I : DAInstance} {s : DAState} (hI : LoopInv I s) :
    sumNext I s ≤ I.m * (I.n + 1) := by
  unfold sumNext
  calc (Finset.range I.m).sum (fun p => s.next_resp p)
      ≤ (Finset.range I.m).sum (fun _ => I.n + 1) :=
        Finset.sum_le_sum (fun q hq => hI.next_le q (Finset.mem_range.mp hq))
    _ = I.m * (I.n + 1) := by
        rw [Finset.sum_const, Finset.card_range, smul_eq_mul]

theorem daLoop_terminates {I : DAInstance} (hV : ValidInstance I) :
    ∀ fuel s, LoopInv I s → I.m * (I.n + 1) + 1 ≤ sumNext I s + fuel →
    countSingle I (daLoop I fuel s) = 0 ∧ LoopInv I (daLoop I fuel s) := by
  intro fuel
  induction fuel with
  | zero =>
      intro s hI hb
      have := sumNext_le hI
      omega
  | succ fuel ih =>
      intro s hI hb
      have hstep : daLoop I (fuel + 1) s =
          if 0 < countSingle I s then daLoop I fuel (onePass I s) else s := rfl
      rw [hstep]
      by_cases hc : 0 < countSingle I s
      · rw [if_pos hc]
        refine ih (onePass I s) (onePass_inv hV hI) ?_
        have := sumNext_lt_onePass I s hc
        omega
      · rw [if_neg hc]
        exact ⟨by omega, hI⟩

theorem initState_inv {I : DAInstance} (hV : ValidInstance I) :
    LoopInv I (initState I) := by
  refine
    { next_le := ?_, sentinel_stop := ?_, nonsingle_pos := ?_, occ_le := ?_,
      slot_occ := ?_, slot_free := ?_, slot_inj := ?_, matched := ?_,
      rejected := ?_, notach := ?_ } <;> dsimp only [initState]
  · intro q hq; omega
  · intro q hq j hj; omega
  · intro q hq hns; cases hns
  · intro r hr
    have := hV.ipMono r hr
    omega
  · intro r hr i hi1 hi2; omega
  · intro r hr i hi1 hi2; rfl
  · intro r hr i i' hi1 hi2; omega
  · intro q hq hns; cases hns
  · intro q hq j hj; omega
  · intro q hq j hj; omega

theorem sumNext_init (I : DAInstance) : sumNext I (initState I) = 0 := by
  unfold sumNext initState
  simp

theorem finalState_noSingle {I : DAInstance} (hV : ValidInstance I) :
    countSingle I (finalState I) = 0 ∧ LoopInv I (finalState I) := by
  have hz := sumNext_init I
  exact daLoop_terminates hV (I.m * (I.n + 1) + 1) (initState I)
    (initState_inv hV) (by omega)

/-! ## Properties of terminal states -/

/-- At a terminal state (nobody single), proposer `p0` has outcome `r`
exactly when some occupied slot of `r` holds `p0`. -/
theorem held_iff {I : DAInstance} {s : DAState} (hI : LoopInv I s)
    (hns : ∀ p, p < I.m → s.is_single p = false) {r p0 : Nat}
    (hr : r < I.n) (hp0 : p0 < I.m) :
    propMatches I s p0 = r ↔
      ∃ i, I.indptr r ≤ i ∧ i < I.indptr r + s.nums_occupied r ∧
        s.current_prop i = p0 := by
  constructor
  · intro h
    have h' : I.pp p0 (s.next_resp p0 - 1) = r := h
    have hm := hI.matched p0 hp0 (hns p0 hp0) (by rw [h']; exact hr)
    rw [h'] at hm
    exact hm
  · rintro ⟨i, hi1, hi2, hi3⟩
    have := (hI.slot_occ r hr i hi1 hi2).2.2.1
    rw [hi3] at this
    exact this

theorem heldFinset_eq {I : DAInstance} {s : DAState} (hI : LoopInv I s)
    (hns : ∀ p, p < I.m → s.is_single p = false) {r : Nat} (hr : r < I.n) :
    (occList I s r).toFinset =
      (Finset.range I.m).filter (fun p => propMatches I s p = r) := by
  ext q
  simp only [List.mem_toFinset, Finset.mem_filter, Finset.mem_range]
  rw [mem_occList]
  constructor
  · rintro ⟨i, hi1, hi2, hi3⟩
    have o := hI.slot_occ r hr i hi1 hi2
    rw [hi3] at o
    exact ⟨o.1, o.2.2.1⟩
  · rintro ⟨hq, hpmq⟩
    exact (held_iff hI hns hr hq).mp hpmq

theorem heldCount_eq_occ {I : DAInstance} {s : DAState} (hI : LoopInv I s)
    (hns : ∀ p, p < I.m → s.is_single p = false) {r : Nat} (hr : r < I.n) :
    heldCount I (propMatches I s) r = s.nums_occupied r := by
  unfold heldCount
  rw [← heldFinset_eq hI hns hr,
    List.toFinset_card_of_nodup (occList_nodup hI hr), occList_length]

/-- The terminal matching is stable in the sense of the spec. -/
theorem stable_outcome {I : DAInstance} {s : DAState} (hV : ValidInstance I)
    (hI : LoopInv I s) (hcs : countSingle I s = 0) :
    IsStable I (propMatches I s) := by
  have hns := countSingle_zero hcs
  refine ⟨?_, ?_, ?_, ?_, ?_⟩
  · intro p hp
    have h1 := hI.nonsingle_pos p hp (hns p hp)
    have h2 := hI.next_le p hp
    exact (hV.ppRow p hp).1 _ (by omega)
  · intro r hr
    rw [heldCount_eq_occ hI hns hr]
    have := hI.occ_le r hr
    unfold capFn
    omega
  · intro p hp hlt
    have hlt' : I.pp p (s.next_resp p - 1) < I.n := hlt
    have h1 := hI.nonsingle_pos p hp (hns p hp)
    have h2 := hI.next_le p hp
    have hr1 : propRanks I p (propMatches I s p) = s.next_resp p - 1 :=
      propRanks_apply hV hp (by omega)
    obtain ⟨js, hjs, hjrow⟩ := (hV.ppRow p hp).2.2 I.n (le_refl _)
    have hrn : propRanks I p I.n = js := by
      rw [← hjrow]; exact propRanks_apply hV hp hjs
    have hge : s.next_resp p - 1 ≤ js := by
      by_contra hcon
      push_neg at hcon
      have := (hI.sentinel_stop p hp js (by omega) hjrow).1
      omega
    have hne2 : js ≠ s.next_resp p - 1 := by
      intro h
      rw [h] at hjrow
      omega
    rw [hr1, hrn]
    omega
  · intro p hp hlt
    have hlt' : I.pp p (s.next_resp p - 1) < I.n := hlt
    obtain ⟨i, hi1, hi2, hi3⟩ := hI.matched p hp (hns p hp) hlt'
    have o4 := (hI.slot_occ _ hlt' i hi1 hi2).2.2.2
    rw [hi3] at o4
    exact o4
  · intro p hp r hr hblk
    obtain ⟨hne, hpref, hcase⟩ := hblk
    have h1 := hI.nonsingle_pos p hp (hns p hp)
    have h2 := hI.next_le p hp
    have hocc_le := hI.occ_le r hr
    have hr1 : propRanks I p (propMatches I s p) = s.next_resp p - 1 :=
      propRanks_apply hV hp (by omega)
    have hrr := propRanks_inv hV hp (le_of_lt hr)
    have hj : propRanks I p r < s.next_resp p - 1 := by
      rw [hr1] at hpref; exact hpref
    have hnot : ∀ i, I.indptr r ≤ i → i < I.indptr r + s.nums_occupied r →
        s.current_prop i ≠ p := by
      intro i hia hib hcc
      have := held_target hI hr hia hib
      rw [hcc] at this
      exact hne this
    have hnot' : ∀ i, I.indptr (I.pp p (propRanks I p r)) ≤ i →
        i < I.indptr (I.pp p (propRanks I p r)) +
          s.nums_occupied (I.pp p (propRanks I p r)) →
        s.current_prop i ≠ p := by
      rw [hrr.2]; exact hnot
    have hpj : I.pp p (propRanks I p r) < I.n := by rw [hrr.2]; exact hr
    have hrej := hI.rejected p hp (propRanks I p r) (by omega) hpj hnot'
    rw [hrr.2] at hrej
    rcases hcase with ⟨hvac, hacc⟩ | ⟨q0, hq0m, hq0r, hq0rk⟩
    · rw [heldCount_eq_occ hI hns hr] at hvac
      rcases hrej with hrej | ⟨hfull, _⟩
      · omega
      · unfold capFn at hvac; omega
    · obtain ⟨i, hi1, hi2, hi3⟩ := (held_iff hI hns hr hq0m).mp hq0r
      have o4 := (hI.slot_occ r hr i hi1 hi2).2.2.2
      rw [hi3] at o4
      rcases hrej with hrej | ⟨hfull, hall⟩
      · omega
      · have := hall i hi1 (by omega)
        rw [hi3] at this
        omega

/-- The terminal matching is proposer-optimal: no stable matching
gives any proposer a strictly better (lower-position) outcome than the
algorithm does. -/
theorem optimal_outcome {I : DAInstance} {s : DAState} (hV : ValidInstance I)
    (hI : LoopInv I s) (hcs : countSingle I s = 0) :
    ∀ mu, IsStable I mu → ∀ p, p < I.m →
    propRanks I p (propMatches I s p) ≤ propRanks I p (mu p) := by
  intro mu hmu p hp
  have hns := countSingle_zero hcs
  have h1 := hI.nonsingle_pos p hp (hns p hp)
  have h2 := hI.next_le p hp
  have hr1 : propRanks I p (propMatches I s p) = s.next_resp p - 1 :=
    propRanks_apply hV hp (by omega)
  by_contra hcon
  push_neg at hcon
  rw [hr1] at hcon
  have hmup_le := hmu.1 p hp
  have hinv := propRanks_inv hV hp hmup_le
  have hmun : mu p < I.n := by
    rcases Nat.lt_or_ge (mu p) I.n with h | h
    · exact h
    · exfalso
      have hn : mu p = I.n := by omega
      have hrow : I.pp p (propRanks I p (mu p)) = I.n := by rw [hinv.2, hn]
      have := (hI.sentinel_stop p hp _ (by omega) hrow).1
      omega
  have hnot : ∀ i, I.indptr (mu p) ≤ i →
      i < I.indptr (mu p) + s.nums_occupied (mu p) → s.current_prop i ≠ p := by
    intro i hia hib hcc
    have htar := held_target hI hmun hia hib
    rw [hcc] at htar
    have heq2 : propRanks I p (I.pp p (s.next_resp p - 1)) =
        propRanks I p (mu p) := by rw [htar]
    rw [propRanks_apply hV hp (by omega)] at heq2
    omega
  have hnot' : ∀ i, I.indptr (I.pp p (propRanks I p (mu p))) ≤ i →
      i < I.indptr (I.pp p (propRanks I p (mu p))) +
        s.nums_occupied (I.pp p (propRanks I p (mu p))) →
      s.current_prop i ≠ p := by
    rw [hinv.2]; exact hnot
  have hpj : I.pp p (propRanks I p (mu p)) < I.n := by
    rw [hinv.2]; exact hmun
  have hna := hI.notach p hp (propRanks I p (mu p)) (by omega) hpj hnot'
  rw [hinv.2] at hna
  exact hna ⟨mu, hmu, rfl⟩

/-- Stability, phrased on the raw slot array exactly as the claims
state it: no proposer strictly prefers a respondent that has a free
seat and finds it acceptable, or that holds someone it strictly
outranks. -/
theorem noBlocking_slots {I : DAInstance} {s : DAState} (hV : ValidInstance I)
    (hI : LoopInv I s) (hcs : countSingle I s = 0) :
    ∀ p, p < I.m → ∀ r, r < I.n → propMatches I s p ≠ r →
    ¬ (propRanks I p r < propRanks I p (propMatches I s p) ∧
       ((∃ i, I.indptr r ≤ i ∧ i < I.indptr (r + 1) ∧ s.current_prop i = I.m) ∧
          respRanks I r p < respRanks I r I.m ∨
        ∃ i, I.indptr r ≤ i ∧ i < I.indptr (r + 1) ∧ s.current_prop i < I.m ∧
          respRanks I r p < respRanks I r (s.current_prop i))) := by
  intro p hp r hr hne
  rintro ⟨hpref, hcase⟩
  have hns := countSingle_zero hcs
  have h1 := hI.nonsingle_pos p hp (hns p hp)
  have h2 := hI.next_le p hp
  have hocc_le := hI.occ_le r hr
  have hr1 : propRanks I p (propMatches I s p) = s.next_resp p - 1 :=
    propRanks_apply hV hp (by omega)
  have hrr := propRanks_inv hV hp (le_of_lt hr)
  have hj : propRanks I p r < s.next_resp p - 1 := by
    rw [hr1] at hpref; exact hpref
  have hnot : ∀ i, I.indptr r ≤ i → i < I.indptr r + s.nums_occupied r →
      s.current_prop i ≠ p := by
    intro i hia hib hcc
    have := held_target hI hr hia hib
    rw [hcc] at this
    exact hne this
  have hnot' : ∀ i, I.indptr (I.pp p (propRanks I p r)) ≤ i →
      i < I.indptr (I.pp p (propRanks I p r)) +
        s.nums_occupied (I.pp p (propRanks I p r)) →
      s.current_prop i ≠ p := by
    rw [hrr.2]; exact hnot
  have hpj : I.pp p (propRanks I p r) < I.n := by rw [hrr.2]; exact hr
  have hrej := hI.rejected p hp (propRanks I p r) (by omega) hpj hnot'
  rw [hrr.2] at hrej
  rcases hcase with ⟨⟨i, hia, hib, hfree⟩, hacc⟩ | ⟨i, hia, hib, hlt_m, hrk⟩
  · have hio : ¬ i < I.indptr r + s.nums_occupied r := by
      intro hio
      have := (hI.slot_occ r hr i hia hio).1
      omega
    rcases hrej with hrej | ⟨hfull, _⟩
    · omega
    · omega
  · have hio : i < I.indptr r + s.nums_occupied r := by
      by_contra hio
      have := hI.slot_free r hr i (by omega) hib
      omega
    have o4 := (hI.slot_occ r hr i hia hio).2.2.2
    rcases hrej with hrej | ⟨hfull, hall⟩
    · omega
    · have := hall i hia hib
      omega

/-- Any two terminal states of the proposal step relation produce the
same proposer assignment (outcome uniqueness, via mutual
proposer-optimality of the two stable outcomes). -/
theorem equal_outcomes {I : DAInstance} (hV : ValidInstance I)
    {s1 s2 : DAState} (h1 : LoopInv I s1) (hc1 : countSingle I s1 = 0)
    (h2 : LoopInv I s2) (hc2 : countSingle I s2 = 0) :
    ∀ p, p < I.m → propMatches I s1 p = propMatches I s2 p := by
  intro p hp
  have hst1 := stable_outcome hV h1 hc1
  have hst2 := stable_outcome hV h2 hc2
  have ha := optimal_outcome hV h1 hc1 (propMatches I s2) hst2 p hp
  have hb := optimal_outcome hV h2 hc2 (propMatches I s1) hst1 p hp
  have he : propRanks I p (propMatches I s1 p) =
      propRanks I p (propMatches I s2 p) := le_antisymm ha hb
  have hv1 := hst1.1 p hp
  have hv2 := hst2.1 p hp
  have g1 := (propRanks_inv hV hp hv1).2
  have g2 := (propRanks_inv hV hp hv2).2
  rw [← g1, ← g2, he]

/-! ## Alternative proposal orders -/

/-- Run an arbitrary schedule of proposal turns from the initial
state; the entry `p` means "proposer `p` gets a turn" (a turn is a
no-op when `p` is currently matched, exactly as in the loop body). -/
def runSchedule (I : DAInstance) (L : List Nat) : DAState :=
  L.foldl (propose I) (initState I)

/-- One synchronous round: exactly the proposers that are single at
the start of the round act, once each; a proposer evicted during the
round does not act again until the next round. Targets are read from
the round-start cursors (only a proposer's own action moves its
cursor) and each respondent resolves its incoming proposals with the
accept/evict rule, as the spec's concurrency section describes. -/
def syncRound (I : DAInstance) (s : DAState) : DAState :=
  ((List.range I.m).filter (fun p => s.is_single p)).foldl (propose I) s

/-- Iterated synchronous rounds (with the same fuel bound as the
sequential loop). -/
def syncLoop (I : DAInstance) : Nat → DAState → DAState
  | 0, s => s
  | fuel + 1, s =>
      if 0 < countSingle I s then syncLoop I fuel (syncRound I s) else s

def syncFinal (I : DAInstance) : DAState :=
  syncLoop I (I.m * (I.n + 1) + 1) (initState I)

theorem syncRound_inv {I : DAInstance} (hV : ValidInstance I) {s : DAState}
    (hI : LoopInv I s) : LoopInv I (syncRound I s) :=
  foldl_inv hV _ (fun _ hp => List.mem_range.mp (List.mem_filter.mp hp).1) s hI

theorem sumNext_lt_syncRound (I : DAInstance) (s : DAState)
    (h : 0 < countSingle I s) : sumNext I s < sumNext I (syncRound I s) := by
  obtain ⟨p, hp, hs⟩ := (countSingle_pos_iff I s).mp h
  refine Finset.sum_lt_sum (fun q _ => foldl_next_mono I _ s q) ?_
  refine ⟨p, Finset.mem_range.mpr hp, ?_⟩
  have hmem : p ∈ (List.range I.m).filter (fun p => s.is_single p) :=
    List.mem_filter.mpr ⟨List.mem_range.mpr hp, hs⟩
  have := foldl_single_incr I _ s p hmem hs
  unfold syncRound
  omega

theorem syncLoop_terminates {I : DAInstance} (hV : ValidInstance I) :
    ∀ fuel s, LoopInv I s → I.m * (I.n + 1) + 1 ≤ sumNext I s + fuel →
    countSingle I (syncLoop I fuel s) = 0 ∧ LoopInv I (syncLoop I fuel s) := by
  intro fuel
  induction fuel with
  | zero =>
      intro s hI hb
      have := sumNext_le hI
      omega
  | succ fuel ih =>
      intro s hI hb
      have hstep : syncLoop I (fuel + 1) s =
          if 0 < countSingle I s then syncLoop I fuel (syncRound I s) else s := rfl
      rw [hstep]
      by_cases hc : 0 < countSingle I s
      · rw [if_pos hc]
        refine ih (syncRound I s) (syncRound_inv hV hI) ?_
        have := sumNext_lt_syncRound I s hc
        omega
      · rw [if_neg hc]
        exact ⟨by omega, hI⟩

/-- Every slot index belongs to exactly one respondent's range. -/
theorem slot_owner {I : DAInstance} (hV : ValidInstance I) :
    ∀ k, k ≤ I.n → ∀ i, i < I.indptr k →
    ∃ r, r < k ∧ I.indptr r ≤ i ∧ i < I.indptr (r + 1) := by
  intro k
  induction k with
  | zero =>
      intro _ i hi
      rw [hV.ipZero] at hi
      omega
  | succ k ih =>
      intro hk i hi
      by_cases h : I.indptr k ≤ i
      · exact ⟨k, by omega, h, hi⟩
      · obtain ⟨r, hr1, hr2, hr3⟩ := ih (by omega) i (by omega)
        exact ⟨r, by omega, hr2, hr3⟩

theorem equal_held {I : DAInstance} (hV : ValidInstance I)
    {s1 s2 : DAState} (h1 : LoopInv I s1) (hc1 : countSingle I s1 = 0)
    (h2 : LoopInv I s2) (hc2 : countSingle I s2 = 0) :
    ∀ r, r < I.n → (occList I s1 r).toFinset = (occList I s2 r).toFinset := by
  intro r hr
  rw [heldFinset_eq h1 (countSingle_zero hc1) hr,
    heldFinset_eq h2 (countSingle_zero hc2) hr]
  apply Finset.filter_congr
  intro p hp
  rw [equal_outcomes hV h1 hc1 h2 hc2 p (Finset.mem_range.mp hp)]

/-! ## Valid inputs at the list level -/

/-- A preference row of length `k+1` that is a permutation of
`{0,...,k}` (the spec's input contract for one row). -/
def RowPerm (row : List Nat) (k : Nat) : Prop :=
  row.Perm (List.range (k + 1))

instance (row : List Nat) (k : Nat) : Decidable (RowPerm row k) := by
  unfold RowPerm; infer_instance

/-- Valid inputs of `deferred_acceptance`: every proposer row is a
permutation of `{0,...,n}`, every respondent row a permutation of
`{0,...,m}`, and a supplied capacity vector has length `n` with
positive entries. -/
def ValidLists (pp rp : List (List Nat)) (caps : Option (List Nat)) : Prop :=
  (∀ row ∈ pp, RowPerm row rp.length) ∧
  (∀ row ∈ rp, RowPerm row pp.length) ∧
  (match caps with
   | none => True
   | some c => c.length = rp.length ∧ ∀ x ∈ c, 1 ≤ x)

instance (pp rp : List (List Nat)) (caps : Option (List Nat)) :
    Decidable (ValidLists pp rp caps) := by
  unfold ValidLists
  cases caps <;> exact inferInstance

theorem permRow_of_rowPerm {row : List Nat} {k : Nat} (h : RowPerm row k) :
    PermRow (fun j => row.getD j 0) k := by
  have hlen : row.length = k + 1 := by
    have := h.length_eq
    simpa using this
  have hnd : row.Nodup := h.nodup_iff.mpr (List.nodup_range _)
  refine ⟨?_, ?_, ?_⟩
  · intro j hj
    show row.getD j 0 ≤ k
    have hj' : j < row.length := by omega
    rw [List.getD_eq_getElem _ 0 hj']
    have hmem := h.mem_iff.mp (List.getElem_mem hj')
    rw [List.mem_range] at hmem
    omega
  · intro j hj j' hj' he
    have he' : row.getD j 0 = row.getD j' 0 := he
    have hb1 : j < row.length := by omega
    have hb2 : j' < row.length := by omega
    rw [List.getD_eq_getElem _ 0 hb1, List.getD_eq_getElem _ 0 hb2] at he'
    exact hnd.getElem_inj_iff.mp he'
  · intro x hx
    have hmem : x ∈ row := h.mem_iff.mpr (List.mem_range.mpr (by omega))
    obtain ⟨i, hi, he⟩ := List.mem_iff_getElem.mp hmem
    refine ⟨i, by omega, ?_⟩
    show row.getD i 0 = x
    rw [List.getD_eq_getElem _ 0 hi]
    exact he

theorem validInstance_of_lists {pp rp : List (List Nat)}
    {caps : Option (List Nat)} (h : ValidLists pp rp caps) :
    ValidInstance (mkInstance pp rp caps) := by
  obtain ⟨h1, h2, h3⟩ := h
  refine ⟨?_, ?_, ?_, ?_⟩
  · intro p hp
    have hp' : p < pp.length := hp
    have hrow : pp.getD p [] ∈ pp := by
      rw [List.getD_eq_getElem _ _ hp']
      exact List.getElem_mem hp'
    exact permRow_of_rowPerm (h1 _ hrow)
  · intro r hr
    have hr' : r < rp.length := hr
    have hrow : rp.getD r [] ∈ rp := by
      rw [List.getD_eq_getElem _ _ hr']
      exact List.getElem_mem hr'
    exact permRow_of_rowPerm (h2 _ hrow)
  · cases caps with
    | none => rfl
    | some c => rfl
  · intro r hr
    cases caps with
    | none => exact Nat.lt_succ_self r
    | some c =>
        obtain ⟨hlen, hpos⟩ := h3
        have hr' : r < c.length := by
          have hr'' : r < rp.length := hr
          omega
        have hcap : 1 ≤ c.getD r 0 := by
          rw [List.getD_eq_getElem _ _ hr']
          exact hpos _ (List.getElem_mem hr')
        show mkIndptr c r < mkIndptr c (r + 1)
        have : mkIndptr c (r + 1) = mkIndptr c r + c.getD r 0 := rfl
        omega

theorem map_range_getD (f : Nat → Nat) (m p : Nat) (hp : p < m) :
    ((List.range m).map f).getD p 0 = f p := by
  rw [List.getD_eq_getElem _ 0 (by simp [hp]), List.getElem_map]
  congr 1
  simp

/-- On valid inputs the validation passes and `deferred_acceptance`
returns the assembled outputs of the terminal loop state. -/
theorem da_eq_ok_of_checks {pp rp : List (List Nat)} {caps : Option (List Nat)}
    (h1 : shapeOk pp pp.length (rp.length + 1) = true)
    (h2 : shapeOk rp rp.length (pp.length + 1) = true)
    (h3 : capsOk caps rp.length = true) :
    deferred_acceptance pp rp caps = Except.ok
      ((List.range (mkInstance pp rp caps).m).map
        (propMatches (mkInstance pp rp caps) (finalState (mkInstance pp rp caps))),
       (List.range (numCaps (mkInstance pp rp caps))).map
        (finalState (mkInstance pp rp caps)).current_prop,
       caps.map (fun _ => (List.range ((mkInstance pp rp caps).n + 1)).map
        (mkInstance pp rp caps).indptr)) := by
  unfold deferred_acceptance
  dsimp only
  rw [h1, h2, h3]
  rfl

theorem da_eq_ok {pp rp : List (List Nat)} {caps : Option (List Nat)}
    (h : ValidLists pp rp caps) :
    deferred_acceptance pp rp caps = Except.ok
      ((List.range (mkInstance pp rp caps).m).map
        (propMatches (mkInstance pp rp caps) (finalState (mkInstance pp rp caps))),
       (List.range (numCaps (mkInstance pp rp caps))).map
        (finalState (mkInstance pp rp caps)).current_prop,
       caps.map (fun _ => (List.range ((mkInstance pp rp caps).n + 1)).map
        (mkInstance pp rp caps).indptr)) := by
  have hs1 : shapeOk pp pp.length (rp.length + 1) = true := by
    unfold shapeOk
    rw [Bool.and_eq_true, List.all_eq_true]
    refine ⟨by simp, ?_⟩
    intro row hrow
    have := (h.1 row hrow).length_eq
    simp at this ⊢
    omega
  have hs2 : shapeOk rp rp.length (pp.length + 1) = true := by
    unfold shapeOk
    rw [Bool.and_eq_true, List.all_eq_true]
    refine ⟨by simp, ?_⟩
    intro row hrow
    have := (h.2.1 row hrow).length_eq
    simp at this ⊢
    omega
  have hc : capsOk caps rp.length = true := by
    cases caps with
    | none => rfl
    | some c =>
        unfold capsOk
        simp [h.2.2.1]
  exact da_eq_ok_of_checks hs1 hs2 hc

/-! ## The claims -/

/-- C3: for every valid instance, the main loop of
`deferred_acceptance` terminates: a proposer's cursor never decreases,
increases by exactly one whenever the proposer acts while flagged
single, is bounded by `n + 1`, the total number of proposals made
(the sum of all cursors at exit) is at most `m * (n + 1)`, the loop
reaches a state with no single proposer within its fuel, and the loop
is a fixed point exactly on states with no single proposer. -/
theorem claim_C3_termination (I : DAInstance) (hV : ValidInstance I) :
    (∀ s p q, s.next_resp q ≤ (propose I s p).next_resp q) ∧
    (∀ (s : DAState) p, s.is_single p = true →
      (propose I s p).next_resp p = s.next_resp p + 1) ∧
    (∀ p, p < I.m → (finalState I).next_resp p ≤ I.n + 1) ∧
    sumNext I (finalState I) ≤ I.m * (I.n + 1) ∧
    countSingle I (finalState I) = 0 ∧
    (∀ fuel s, countSingle I s = 0 → daLoop I fuel s = s) := by
  have hfin := finalState_noSingle hV
  refine ⟨?_, ?_, ?_, ?_, hfin.1, ?_⟩
  · intro s p q; exact propose_next_mono I s p q
  · intro s p h; exact propose_single_incr I s h
  · intro p hp; exact hfin.2.next_le p hp
  · exact sumNext_le hfin.2
  · intro fuel s h
    cases fuel with
    | zero => rfl
    | succ f =>
        have hstep : daLoop I (f + 1) s =
            if 0 < countSingle I s then daLoop I f (onePass I s) else s := rfl
        rw [hstep, if_neg (by omega)]

/-- C3 witness: the conclusion instantiated at the 3-by-3 concrete
instance. -/
theorem claim_C3_termination_witness :
    ValidInstance (mkInstance [[0,1,2,3],[0,1,2,3],[0,1,2,3]]
      [[2,1,0,3],[2,1,0,3],[2,1,0,3]] none) ∧
    countSingle (mkInstance [[0,1,2,3],[0,1,2,3],[0,1,2,3]]
      [[2,1,0,3],[2,1,0,3],[2,1,0,3]] none)
      (finalState (mkInstance [[0,1,2,3],[0,1,2,3],[0,1,2,3]]
        [[2,1,0,3],[2,1,0,3],[2,1,0,3]] none)) = 0 := by
  have hv : ValidInstance (mkInstance [[0,1,2,3],[0,1,2,3],[0,1,2,3]]
      [[2,1,0,3],[2,1,0,3],[2,1,0,3]] none) :=
    validInstance_of_lists (by decide)
  exact ⟨hv, (claim_C3_termination _ hv).2.2.2.2.1⟩

/-- C4: on the concrete 3-by-3 instance of the spec's scenario,
`deferred_acceptance` without capacities returns
`prop_matches = [2, 1, 0]` and `resp_matches = [2, 1, 0]`. -/
theorem claim_C4_concrete :
    deferred_acceptance [[0,1,2,3],[0,1,2,3],[0,1,2,3]]
      [[2,1,0,3],[2,1,0,3],[2,1,0,3]] none =
    Except.ok ([2,1,0], [2,1,0], none) := by rfl

/-- C8: on a permutation row, `prefs2ranks` inverts the row:
`out[i, prefs[i, j]] = j` for every position `j`, and the resulting
row of the rank table is the two-sided inverse of the preference row,
hence a bijection onto `{0,...,k}`. -/
theorem claim_C8_prefs2ranks :
    ∀ (prefs : List (List Nat)) (init : Nat → Nat → Nat) (i k : Nat),
    RowPerm (prefs.getD i []) k →
    (∀ j, j ≤ k → prefs2ranks prefs init i ((prefs.getD i []).getD j 0) = j) ∧
    (∀ x, x ≤ k → prefs2ranks prefs init i x ≤ k ∧
      (prefs.getD i []).getD (prefs2ranks prefs init i x) 0 = x) := by
  intro prefs init i k h
  have hP := permRow_of_rowPerm h
  have hlen : (prefs.getD i []).length = k + 1 := by
    simpa using h.length_eq
  constructor
  · intro j hj
    show ranksFromRow (matFun prefs i) (init i)
      (prefs.getD i []).length ((prefs.getD i []).getD j 0) = j
    rw [hlen]
    exact ranksFromRow_eq_of_apply _ _ _ hP j hj
  · intro x hx
    have hinv := ranksFromRow_inv (matFun prefs i) (init i) k hP x hx
    constructor
    · show ranksFromRow (matFun prefs i) (init i) (prefs.getD i []).length x ≤ k
      rw [hlen]
      exact hinv.1
    · show (prefs.getD i []).getD
        (ranksFromRow (matFun prefs i) (init i) (prefs.getD i []).length x) 0 = x
      rw [hlen]
      exact hinv.2

/-- C8 witness: the rank table of the concrete row `[2, 0, 1, 3]`. -/
theorem claim_C8_prefs2ranks_witness :
    RowPerm ([[2,0,1,3]].getD 0 []) 3 ∧
    (∀ j, j ≤ 3 →
      prefs2ranks [[2,0,1,3]] (fun _ _ => 0) 0
        (([[2,0,1,3]].getD 0 []).getD j 0) = j) := by
  have h : RowPerm ([[2,0,1,3]].getD 0 []) 3 := by decide
  exact ⟨h, (claim_C8_prefs2ranks [[2,0,1,3]] (fun _ _ => 0) 0 3 h).1⟩

/-- C9: the final matching does not depend on the order in which
proposals are processed. Any schedule of proposal turns (covering
index order, any other order, and arbitrary interleavings) that
reaches a state with no single proposer yields the same `prop_matches`
and the same set of proposers held by each respondent as the
implementation's sequential passes (`finalState`), and so does the
synchronous-round processing `syncFinal`, in which exactly the
proposers single at the start of each round act against that round
boundary. -/
theorem claim_C9_order_independence (I : DAInstance) (hV : ValidInstance I) :
    (∀ L : List Nat, (∀ p ∈ L, p < I.m) →
      countSingle I (runSchedule I L) = 0 →
      (∀ p, p < I.m →
        propMatches I (runSchedule I L) p = propMatches I (finalState I) p) ∧
      (∀ r, r < I.n →
        (occList I (runSchedule I L) r).toFinset =
          (occList I (finalState I) r).toFinset)) ∧
    countSingle I (syncFinal I) = 0 ∧
    (∀ p, p < I.m →
      propMatches I (syncFinal I) p = propMatches I (finalState I) p) ∧
    (∀ r, r < I.n →
      (occList I (syncFinal I) r).toFinset =
        (occList I (finalState I) r).toFinset) := by
  have hfin := finalState_noSingle hV
  have hsync := syncLoop_terminates hV (I.m * (I.n + 1) + 1) (initState I)
    (initState_inv hV) (by rw [sumNext_init]; omega)
  refine ⟨?_, hsync.1, ?_, ?_⟩
  · intro L hL hterm
    have hrunInv : LoopInv I (runSchedule I L) :=
      foldl_inv hV L hL (initState I) (initState_inv hV)
    exact ⟨equal_outcomes hV hrunInv hterm hfin.2 hfin.1,
      equal_held hV hrunInv hterm hfin.2 hfin.1⟩
  · exact equal_outcomes hV hsync.2 hsync.1 hfin.2 hfin.1
  · exact equal_held hV hsync.2 hsync.1 hfin.2 hfin.1

/-- C9 witness: instantiated at the 3-by-3 concrete instance, with the
reversed-order schedule (proposers taking turns in decreasing index
order, four passes). -/
theorem claim_C9_order_independence_witness :
    ValidInstance (mkInstance [[0,1,2,3],[0,1,2,3],[0,1,2,3]]
      [[2,1,0,3],[2,1,0,3],[2,1,0,3]] none) ∧
    (∀ p ∈ [2,1,0,2,1,0,2,1,0,2,1,0], p <
      (mkInstance [[0,1,2,3],[0,1,2,3],[0,1,2,3]]
        [[2,1,0,3],[2,1,0,3],[2,1,0,3]] none).m) ∧
    countSingle (mkInstance [[0,1,2,3],[0,1,2,3],[0,1,2,3]]
        [[2,1,0,3],[2,1,0,3],[2,1,0,3]] none)
      (runSchedule (mkInstance [[0,1,2,3],[0,1,2,3],[0,1,2,3]]
        [[2,1,0,3],[2,1,0,3],[2,1,0,3]] none) [2,1,0,2,1,0,2,1,0,2,1,0]) = 0 ∧
    (∀ p, p < (mkInstance [[0,1,2,3],[0,1,2,3],[0,1,2,3]]
        [[2,1,0,3],[2,1,0,3],[2,1,0,3]] none).m →
      propMatches (mkInstance [[0,1,2,3],[0,1,2,3],[0,1,2,3]]
          [[2,1,0,3],[2,1,0,3],[2,1,0,3]] none)
        (runSchedule (mkInstance [[0,1,2,3],[0,1,2,3],[0,1,2,3]]
          [[2,1,0,3],[2,1,0,3],[2,1,0,3]] none) [2,1,0,2,1,0,2,1,0,2,1,0]) p =
      propMatches (mkInstance [[0,1,2,3],[0,1,2,3],[0,1,2,3]]
          [[2,1,0,3],[2,1,0,3],[2,1,0,3]] none)
        (finalState (mkInstance [[0,1,2,3],[0,1,2,3],[0,1,2,3]]
          [[2,1,0,3],[2,1,0,3],[2,1,0,3]] none)) p) := by
  have hv : ValidInstance (mkInstance [[0,1,2,3],[0,1,2,3],[0,1,2,3]]
      [[2,1,0,3],[2,1,0,3],[2,1,0,3]] none) :=
    validInstance_of_lists (by decide)
  have hL : ∀ p ∈ [2,1,0,2,1,0,2,1,0,2,1,0], p <
      (mkInstance [[0,1,2,3],[0,1,2,3],[0,1,2,3]]
        [[2,1,0,3],[2,1,0,3],[2,1,0,3]] none).m := by decide
  have hterm : countSingle (mkInstance [[0,1,2,3],[0,1,2,3],[0,1,2,3]]
        [[2,1,0,3],[2,1,0,3],[2,1,0,3]] none)
      (runSchedule (mkInstance [[0,1,2,3],[0,1,2,3],[0,1,2,3]]
        [[2,1,0,3],[2,1,0,3],[2,1,0,3]] none) [2,1,0,2,1,0,2,1,0,2,1,0]) = 0 := by
    decide
  exact ⟨hv, hL, hterm,
    ((claim_C9_order_independence _ hv).1 _ hL hterm).1⟩

/-- The stability condition of claim C1, read off the two output
arrays: no proposer `p` and respondent `r` not matched to each other
such that `p` strictly prefers `r` to its assigned outcome and `r`
strictly prefers `p` to its vacancy sentinel (having an unfilled seat)
or to one of its currently held occupants (in particular its
least-preferred one). -/
def StabilityProperty (I : DAInstance) (pm rm : List Nat) : Prop :=
  ∀ p, p < I.m → ∀ r, r < I.n → pm.getD p 0 ≠ r →
  ¬ (propRanks I p r < propRanks I p (pm.getD p 0) ∧
     (((∃ i, I.indptr r ≤ i ∧ i < I.indptr (r + 1) ∧ rm.getD i 0 = I.m) ∧
        respRanks I r p < respRanks I r I.m) ∨
      ∃ i, I.indptr r ≤ i ∧ i < I.indptr (r + 1) ∧ rm.getD i 0 < I.m ∧
        respRanks I r p < respRanks I r (rm.getD i 0)))

/-- C1: for every valid input, the matching returned by
`deferred_acceptance` is stable. -/
theorem claim_C1_stability (prop_prefs resp_prefs : List (List Nat))
    (caps : Option (List Nat)) (hv : ValidLists prop_prefs resp_prefs caps)
    (pm rm : List Nat) (ipo : Option (List Nat))
    (hok : deferred_acceptance prop_prefs resp_prefs caps =
      Except.ok (pm, rm, ipo)) :
    StabilityProperty (mkInstance prop_prefs resp_prefs caps) pm rm := by
  rw [da_eq_ok hv] at hok
  injection hok with hok
  injection hok with hpm hok
  injection hok with hrm hipo
  subst hpm
  subst hrm
  have hVi := validInstance_of_lists hv
  have hfin := finalState_noSingle hVi
  intro p hp r hr hne hblk
  rw [map_range_getD _ _ p hp] at hne hblk
  have hsub : (mkInstance prop_prefs resp_prefs caps).indptr (r + 1) ≤
      numCaps (mkInstance prop_prefs resp_prefs caps) :=
    indptr_mono_le hVi (by omega) (le_refl _)
  refine noBlocking_slots hVi hfin.2 hfin.1 p hp r hr hne ⟨hblk.1, ?_⟩
  rcases hblk.2 with ⟨⟨i, hia, hib, hfree⟩, hacc⟩ | ⟨i, hia, hib, hltm, hrc⟩
  · rw [map_range_getD _ _ i (by omega)] at hfree
    exact Or.inl ⟨⟨i, hia, hib, hfree⟩, hacc⟩
  · rw [map_range_getD _ _ i (by omega)] at hltm hrc
    exact Or.inr ⟨i, hia, hib, hltm, hrc⟩

/-- C1 witness: the 3-by-3 concrete instance. -/
theorem claim_C1_stability_witness :
    ValidLists [[0,1,2,3],[0,1,2,3],[0,1,2,3]]
      [[2,1,0,3],[2,1,0,3],[2,1,0,3]] none ∧
    StabilityProperty (mkInstance [[0,1,2,3],[0,1,2,3],[0,1,2,3]]
      [[2,1,0,3],[2,1,0,3],[2,1,0,3]] none) [2,1,0] [2,1,0] := by
  have hv : ValidLists [[0,1,2,3],[0,1,2,3],[0,1,2,3]]
      [[2,1,0,3],[2,1,0,3],[2,1,0,3]] none := by decide
  exact ⟨hv, claim_C1_stability _ _ _ hv [2,1,0] [2,1,0] none rfl⟩

/-- C2: in the one-to-one case (no capacities), the returned matching
is proposer-optimal: every proposer weakly prefers its assignment to
its assignment under any stable matching of the same instance. -/
theorem claim_C2_proposer_optimality (prop_prefs resp_prefs : List (List Nat))
    (hv : ValidLists prop_prefs resp_prefs none)
    (pm rm : List Nat) (ipo : Option (List Nat))
    (hok : deferred_acceptance prop_prefs resp_prefs none =
      Except.ok (pm, rm, ipo)) :
    ∀ mu, IsStable (mkInstance prop_prefs resp_prefs none) mu →
    ∀ p, p < prop_prefs.length →
    propRanks (mkInstance prop_prefs resp_prefs none) p (pm.getD p 0) ≤
      propRanks (mkInstance prop_prefs resp_prefs none) p (mu p) := by
  rw [da_eq_ok hv] at hok
  injection hok with hok
  injection hok with hpm hok
  injection hok with hrm hipo
  subst hpm
  subst hrm
  have hVi := validInstance_of_lists hv
  have hfin := finalState_noSingle hVi
  intro mu hmu p hp
  rw [map_range_getD _ (mkInstance prop_prefs resp_prefs none).m p hp]
  exact optimal_outcome hVi hfin.2 hfin.1 mu hmu p hp

/-- C2 witness: the 3-by-3 concrete instance against the stable
matching it itself produces. -/
theorem claim_C2_proposer_optimality_witness :
    ValidLists [[0,1,2,3],[0,1,2,3],[0,1,2,3]]
      [[2,1,0,3],[2,1,0,3],[2,1,0,3]] none ∧
    IsStable (mkInstance [[0,1,2,3],[0,1,2,3],[0,1,2,3]]
      [[2,1,0,3],[2,1,0,3],[2,1,0,3]] none) (fun p => [2,1,0].getD p 0) ∧
    (∀ p, p < 3 →
      propRanks (mkInstance [[0,1,2,3],[0,1,2,3],[0,1,2,3]]
          [[2,1,0,3],[2,1,0,3],[2,1,0,3]] none) p (([2,1,0] : List Nat).getD p 0) ≤
      propRanks (mkInstance [[0,1,2,3],[0,1,2,3],[0,1,2,3]]
          [[2,1,0,3],[2,1,0,3],[2,1,0,3]] none) p ([2,1,0].getD p 0)) := by
  have hv : ValidLists [[0,1,2,3],[0,1,2,3],[0,1,2,3]]
      [[2,1,0,3],[2,1,0,3],[2,1,0,3]] none := by decide
  have hmu : IsStable (mkInstance [[0,1,2,3],[0,1,2,3],[0,1,2,3]]
      [[2,1,0,3],[2,1,0,3],[2,1,0,3]] none) (fun p => [2,1,0].getD p 0) := by
    decide
  exact ⟨hv, hmu, fun p hp =>
    claim_C2_proposer_optimality _ _ hv [2,1,0] [2,1,0] none rfl _ hmu p hp⟩

/-- The individual-rationality condition of claim C7 on the output
arrays. -/
def IRProperty (I : DAInstance) (pm rm : List Nat) : Prop :=
  (∀ p, p < I.m → pm.getD p 0 < I.n →
    propRanks I p (pm.getD p 0) < propRanks I p I.n) ∧
  (∀ r, r < I.n → ∀ i, I.indptr r ≤ i → i < I.indptr (r + 1) →
    rm.getD i 0 < I.m → respRanks I r (rm.getD i 0) < respRanks I r I.m)

/-- C7: for every valid input, the returned matching is individually
rational: a matched proposer never ranks its respondent below its own
unmatched sentinel, and no occupied slot of a respondent holds a
proposer ranked below the respondent's vacancy sentinel. -/
theorem claim_C7_individual_rationality (prop_prefs resp_prefs : List (List Nat))
    (caps : Option (List Nat)) (hv : ValidLists prop_prefs resp_prefs caps)
    (pm rm : List Nat) (ipo : Option (List Nat))
    (hok : deferred_acceptance prop_prefs resp_prefs caps =
      Except.ok (pm, rm, ipo)) :
    IRProperty (mkInstance prop_prefs resp_prefs caps) pm rm := by
  rw [da_eq_ok hv] at hok
  injection hok with hok
  injection hok with hpm hok
  injection hok with hrm hipo
  subst hpm
  subst hrm
  have hVi := validInstance_of_lists hv
  have hfin := finalState_noSingle hVi
  constructor
  · intro p hp hlt
    rw [map_range_getD _ _ p hp] at hlt ⊢
    exact (stable_outcome hVi hfin.2 hfin.1).2.2.1 p hp hlt
  · intro r hr i hia hib hltm
    have hsub : (mkInstance prop_prefs resp_prefs caps).indptr (r + 1) ≤
        numCaps (mkInstance prop_prefs resp_prefs caps) :=
      indptr_mono_le hVi (by omega) (le_refl _)
    rw [map_range_getD _ _ i (by omega)] at hltm ⊢
    have hio : i < (mkInstance prop_prefs resp_prefs caps).indptr r +
        (finalState (mkInstance prop_prefs resp_prefs caps)).nums_occupied r := by
      by_contra hcon
      have := hfin.2.slot_free r hr i (by omega) hib
      omega
    exact (hfin.2.slot_occ r hr i hia hio).2.2.2

/-- C7 witness: the 3-by-3 concrete instance. -/
theorem claim_C7_individual_rationality_witness :
    ValidLists [[0,1,2,3],[0,1,2,3],[0,1,2,3]]
      [[2,1,0,3],[2,1,0,3],[2,1,0,3]] none ∧
    IRProperty (mkInstance [[0,1,2,3],[0,1,2,3],[0,1,2,3]]
      [[2,1,0,3],[2,1,0,3],[2,1,0,3]] none) [2,1,0] [2,1,0] := by
  have hv : ValidLists [[0,1,2,3],[0,1,2,3],[0,1,2,3]]
      [[2,1,0,3],[2,1,0,3],[2,1,0,3]] none := by decide
  exact ⟨hv, claim_C7_individual_rationality _ _ _ hv [2,1,0] [2,1,0] none rfl⟩

/-- The output-consistency condition of claim C10: the two outputs
describe the same matching. `pm.getD p 0 = r` for a real respondent
`r` iff `p` occupies exactly one slot of `resp_matches` in `r`'s
`indptr` range; an unmatched proposer appears in no slot; and every
slot holds either the respondent-side sentinel `m` or a proposer
matched to the respondent owning that slot. -/
def ConsistencyProperty (I : DAInstance) (pm rm : List Nat) : Prop :=
  (∀ p, p < I.m → ∀ r, r < I.n →
    (pm.getD p 0 = r ↔
      ∃! i, I.indptr r ≤ i ∧ i < I.indptr (r + 1) ∧ rm.getD i 0 = p)) ∧
  (∀ p, p < I.m → pm.getD p 0 = I.n →
    ∀ i, i < rm.length → rm.getD i 0 ≠ p) ∧
  (∀ i, i < rm.length → rm.getD i 0 = I.m ∨
    (rm.getD i 0 < I.m ∧ ∃ r, r < I.n ∧ I.indptr r ≤ i ∧ i < I.indptr (r + 1) ∧
      pm.getD (rm.getD i 0) 0 = r))

/-- C10: for every valid input, the two outputs of
`deferred_acceptance` are mutually consistent descriptions of one
matching. -/
theorem claim_C10_output_consistency (prop_prefs resp_prefs : List (List Nat))
    (caps : Option (List Nat)) (hv : ValidLists prop_prefs resp_prefs caps)
    (pm rm : List Nat) (ipo : Option (List Nat))
    (hok : deferred_acceptance prop_prefs resp_prefs caps =
      Except.ok (pm, rm, ipo)) :
    ConsistencyProperty (mkInstance prop_prefs resp_prefs caps) pm rm := by
  rw [da_eq_ok hv] at hok
  injection hok with hok
  injection hok with hpm hok
  injection hok with hrm hipo
  subst hpm
  subst hrm
  have hVi := validInstance_of_lists hv
  have hfin := finalState_noSingle hVi
  have hns := countSingle_zero hfin.1
  have hlen : ((List.range (numCaps (mkInstance prop_prefs resp_prefs caps))).map
      (finalState (mkInstance prop_prefs resp_prefs caps)).current_prop).length =
      numCaps (mkInstance prop_prefs resp_prefs caps) := by simp
  refine ⟨?_, ?_, ?_⟩
  · intro p hp r hr
    rw [map_range_getD _ (mkInstance prop_prefs resp_prefs caps).m p hp]
    have hsub : (mkInstance prop_prefs resp_prefs caps).indptr (r + 1) ≤
        numCaps (mkInstance prop_prefs resp_prefs caps) :=
      indptr_mono_le hVi (by omega) (le_refl _)
    have hocc_le := hfin.2.occ_le r hr
    constructor
    · intro hpm
      obtain ⟨i, hia, hib, hic⟩ := (held_iff hfin.2 hns hr hp).mp hpm
      refine ⟨i, ⟨hia, by omega, ?_⟩, ?_⟩
      · rw [map_range_getD _ _ i (by omega)]
        exact hic
      · rintro j ⟨hja, hjb, hjc⟩
        rw [map_range_getD _ _ j (by omega)] at hjc
        have hjo : j < (mkInstance prop_prefs resp_prefs caps).indptr r +
            (finalState (mkInstance prop_prefs resp_prefs caps)).nums_occupied r := by
          by_contra hcon
          have hfree := hfin.2.slot_free r hr j (by omega) hjb
          rw [hfree] at hjc
          omega
        exact hfin.2.slot_inj r hr j i hja hjo hia hib (hjc.trans hic.symm)
    · rintro ⟨i, ⟨hia, hib, hic⟩, _⟩
      rw [map_range_getD _ _ i (by omega)] at hic
      have hio : i < (mkInstance prop_prefs resp_prefs caps).indptr r +
          (finalState (mkInstance prop_prefs resp_prefs caps)).nums_occupied r := by
        by_contra hcon
        have hfree := hfin.2.slot_free r hr i (by omega) hib
        rw [hfree] at hic
        omega
      exact (held_iff hfin.2 hns hr hp).mpr ⟨i, hia, hio, hic⟩
  · intro p hp hpmn i hi
    rw [map_range_getD _ (mkInstance prop_prefs resp_prefs caps).m p hp] at hpmn
    rw [hlen] at hi
    rw [map_range_getD _ _ i hi]
    intro hcc
    obtain ⟨r, hr, hra, hrb⟩ :=
      slot_owner hVi (mkInstance prop_prefs resp_prefs caps).n (le_refl _) i hi
    have hio : i < (mkInstance prop_prefs resp_prefs caps).indptr r +
        (finalState (mkInstance prop_prefs resp_prefs caps)).nums_occupied r := by
      by_contra hcon
      have hfree := hfin.2.slot_free r hr i (by omega) hrb
      rw [hfree] at hcc
      omega
    have htar := held_target hfin.2 hr hra hio
    rw [hcc] at htar
    have hpmn' : (mkInstance prop_prefs resp_prefs caps).pp p
        ((finalState (mkInstance prop_prefs resp_prefs caps)).next_resp p - 1) =
        (mkInstance prop_prefs resp_prefs caps).n := hpmn
    omega
  · intro i hi
    rw [hlen] at hi
    rw [map_range_getD _ _ i hi]
    obtain ⟨r, hr, hra, hrb⟩ :=
      slot_owner hVi (mkInstance prop_prefs resp_prefs caps).n (le_refl _) i hi
    by_cases hio : i < (mkInstance prop_prefs resp_prefs caps).indptr r +
        (finalState (mkInstance prop_prefs resp_prefs caps)).nums_occupied r
    · right
      have o := hfin.2.slot_occ r hr i hra hio
      refine ⟨o.1, r, hr, hra, hrb, ?_⟩
      rw [map_range_getD _ (mkInstance prop_prefs resp_prefs caps).m _ o.1]
      exact o.2.2.1
    · left
      exact hfin.2.slot_free r hr i (by omega) hrb

/-- C10 witness: the 3-by-3 concrete instance. -/
theorem claim_C10_output_consistency_witness :
    ValidLists [[0,1,2,3],[0,1,2,3],[0,1,2,3]]
      [[2,1,0,3],[2,1,0,3],[2,1,0,3]] none ∧
    ConsistencyProperty (mkInstance [[0,1,2,3],[0,1,2,3],[0,1,2,3]]
      [[2,1,0,3],[2,1,0,3],[2,1,0,3]] none) [2,1,0] [2,1,0] := by
  have hv : ValidLists [[0,1,2,3],[0,1,2,3],[0,1,2,3]]
      [[2,1,0,3],[2,1,0,3],[2,1,0,3]] none := by decide
  exact ⟨hv, claim_C10_output_consistency _ _ _ hv [2,1,0] [2,1,0] none rfl⟩

/-- C5: `deferred_acceptance` returns a validation error exactly when
the two preference matrices' shapes are mutually inconsistent (with
`m` and `n` inferred from the row counts) or a supplied capacity
vector has length different from `n`; the checks run before any
matching state is built and an error carries no partial result. -/
theorem claim_C5_validation :
    ∀ (prop_prefs resp_prefs : List (List Nat)) (caps : Option (List Nat)),
    (∃ e, deferred_acceptance prop_prefs resp_prefs caps = Except.error e) ↔
    (¬ (shapeOk prop_prefs prop_prefs.length (resp_prefs.length + 1) = true ∧
        shapeOk resp_prefs resp_prefs.length (prop_prefs.length + 1) = true) ∨
     ∃ c, caps = some c ∧ c.length ≠ resp_prefs.length) := by
  intro pp rp caps
  by_cases hs : (shapeOk pp pp.length (rp.length + 1) &&
      shapeOk rp rp.length (pp.length + 1)) = true
  · rw [Bool.and_eq_true] at hs
    obtain ⟨hs1, hs2⟩ := hs
    by_cases hcap : capsOk caps rp.length = true
    · have hda : ∃ out, deferred_acceptance pp rp caps = Except.ok out :=
        ⟨_, da_eq_ok_of_checks hs1 hs2 hcap⟩
      constructor
      · rintro ⟨e, he⟩
        obtain ⟨out, hout⟩ := hda
        rw [hout] at he
        exact Except.noConfusion he
      · rintro (h | ⟨c, hc, hlen⟩)
        · exact absurd ⟨hs1, hs2⟩ h
        · subst hc
          unfold capsOk at hcap
          exact absurd (by simpa using hcap) hlen
    · have hda : deferred_acceptance pp rp caps =
          Except.error "length of caps must be equal to that of resp_prefs" := by
        unfold deferred_acceptance
        dsimp only
        rw [hs1, hs2, Bool.eq_false_iff.mpr hcap]
        rfl
      constructor
      · intro _
        right
        cases caps with
        | none => exact absurd rfl hcap
        | some c =>
            refine ⟨c, rfl, ?_⟩
            intro hlen
            refine hcap ?_
            unfold capsOk
            simp [hlen]
      · intro _
        exact ⟨_, hda⟩
  · have hda : deferred_acceptance pp rp caps =
        Except.error "shapes of preferences arrays do not match" := by
      unfold deferred_acceptance
      dsimp only
      rw [Bool.eq_false_iff.mpr hs]
      rfl
    constructor
    · intro _
      left
      rintro ⟨h1, h2⟩
      exact hs (by rw [h1, h2]; rfl)
    · intro _
      exact ⟨_, hda⟩

/-- C6 counterexample: the claim says `deferred_acceptance` validates
malformed preference rows and fails fast; in fact the proposer row
`[0, 0]` (duplicated id, missing sentinel 1) passes the shape check
and the call returns an ordinary result computed from the rank table
built from that row, instead of an error. -/
theorem claim_C6_counterexample :
    deferred_acceptance [[0, 0]] [[0, 1]] none =
      Except.ok ([0], [0], none) := by rfl

/-- C6 as amended: `deferred_acceptance` does not validate preference
rows as permutations. There is an input with a malformed proposer row
(a duplicated id and a missing sentinel) that passes the only checks
the function performs (the shape check and the capacity-length check)
and for which an ordinary result, computed from the rank table built
from the malformed row, is returned instead of an error. On the
exhibited input the run stays in bounds and terminates, so the model
computes exactly what the program does there. -/
theorem claim_C6_amended :
    ∃ pp rp : List (List Nat),
      (¬ ∀ row ∈ pp, RowPerm row rp.length) ∧
      shapeOk pp pp.length (rp.length + 1) = true ∧
      shapeOk rp rp.length (pp.length + 1) = true ∧
      ∃ pm rm : List Nat,
        deferred_acceptance pp rp none = Except.ok (pm, rm, none) :=
  ⟨[[0, 0]], [[0, 1]], by decide, by decide, by decide, [0], [0], by rfl⟩
